import Mathlib

set_option maxHeartbeats 1000000

namespace Ironfish

/-- A block header as the chain processor sees it: a hash, the parent's hash,
and the height (`sequence`).  Hashes are modelled as natural numbers with
bytewise equality becoming equality of naturals; `sequence` is an `Int`
because the source subtracts one from it (`remove.sequence - 1`). -/
structure Header where
  hash : Nat
  previousBlockHash : Nat
  sequence : Int
deriving DecidableEq, Repr

/-- Modelled from the spec: the Chain Store interface of section 4.A
(`blockchain.ts` is not part of the sources).  A store has a constant
genesis header, a current head, and a finite collection of headers. -/
structure Blockchain where
  genesis : Header
  head : Header
  headers : List Header
deriving DecidableEq, Repr

/-- Modelled from the spec: `get_header(hash) -> Header | absent` looks a
header up by hash. -/
def Blockchain.getHeader (bc : Blockchain) (h : Nat) : Option Header :=
  bc.headers.find? (fun x => x.hash == h)

/-- Modelled from the spec: the backward walk along parent pointers from a
starting header toward a stopping hash, yielding the start first and the
stop last.  Recursion is bounded by explicit fuel; the walk also ends if a
parent is absent from the store. -/
def Blockchain.backWalk (bc : Blockchain) : Nat → Header → Nat → List Header
  | 0, _, _ => []
  | fuel + 1, cur, stopHash =>
    if cur.hash = stopHash then [cur]
    else
      cur :: (match bc.getHeader cur.previousBlockHash with
        | some p => bc.backWalk fuel p stopHash
        | none => [])

/-- Fuel that always suffices for walks over well-formed stores: one more
than the number of stored headers. -/
def Blockchain.fuel (bc : Blockchain) : Nat := bc.headers.length + 1

/-- Modelled from the spec: `iterate_from(start, stop, inclusive=false)`
walks backward along parent pointers from `start` toward `stop`, yielding
`start` first and `stop` last (the consumer filters the stop). -/
def Blockchain.iterateFrom (bc : Blockchain) (start stop : Header) : List Header :=
  bc.backWalk bc.fuel start stop.hash

/-- Modelled from the spec: `iterate_to(start, stop, inclusive=false)` walks
forward from `start` to `stop`, yielding `start` first and `stop` last. -/
def Blockchain.iterateTo (bc : Blockchain) (start stop : Header) : List Header :=
  (bc.backWalk bc.fuel stop start.hash).reverse

/-- Modelled from the spec: the chain of ancestors of a header, the header
itself first, obtained by following parent pointers while they resolve. -/
def Blockchain.ancestorList (bc : Blockchain) : Nat → Header → List Header
  | 0, _ => []
  | fuel + 1, cur =>
    cur :: (match bc.getHeader cur.previousBlockHash with
      | some p => bc.ancestorList fuel p
      | none => [])

/-- Modelled from the spec: `find_fork(a, b)` returns the lowest common
ancestor of `a` and `b` (`none` when the two belong to disjoint trees)
together with `is_linear`, true iff the fork is `a` or `b` itself. -/
def Blockchain.findFork (bc : Blockchain) (a b : Header) : Option Header × Bool :=
  let ca := bc.ancestorList bc.fuel a
  let cb := bc.ancestorList bc.fuel b
  match ca.find? (fun h => cb.any (fun g => g.hash == h.hash)) with
  | some f => (some f, f.hash == a.hash || f.hash == b.hash)
  | none => (none, false)

/-- One item of the instrumented execution trace of an `update` pass: an
emitted `onAdd` event, an emitted `onRemove` event, or an observation of
the cancellation signal (recording the value observed). -/
inductive TraceItem where
  | add (h : Header)
  | remove (h : Header)
  | check (aborted : Bool)
deriving DecidableEq, Repr

/-- Whether a trace item is an emitted event (as opposed to a signal
observation). -/
def TraceItem.isEmit : TraceItem → Bool
  | .add _ => true
  | .remove _ => true
  | .check _ => false

/-- The emitted events of a trace, in order, with signal observations
dropped. -/
def emits (tr : List TraceItem) : List TraceItem := tr.filter TraceItem.isEmit

/-- The chain processor state: the chain handle, the cursor (`hash`,
`sequence`, both nullable), the tagged logger, and the two event sinks
(each modelled as the list of registered handler identifiers, in
registration order). -/
structure ChainProcessor where
  chain : Blockchain
  hash : Option Nat
  sequence : Option Int
  logger : String
  onAdd : List Nat
  onRemove : List Nat
deriving DecidableEq, Repr

/-- The root logger used when the constructor receives no logger. -/
def createRootLogger : String := "root"

/-- Tagging a logger, as `Logger.withTag` does. -/
def withTag (logger tag : String) : String := logger ++ ":" ++ tag

/-- The `ChainProcessor` constructor: stores the chain, tags the logger,
seeds the cursor hash from `options.head`, and leaves the sequence and the
handler registries at their initial values. -/
def ChainProcessor.create (logger : Option String) (chain : Blockchain)
    (head : Option Nat) : ChainProcessor :=
  { chain := chain
    hash := head
    sequence := none
    logger := withTag (logger.getD createRootLogger) "chainprocessor"
    onAdd := []
    onRemove := [] }

/-- Result of running one of the two event loops of `update`: the processor
state at exit, the trace produced, the number of signal observations made,
and whether the loop exited through the cancellation early-return. -/
structure LoopOut where
  cp : ChainProcessor
  trace : List TraceItem
  checks : Nat
  aborted : Bool
deriving Repr

/-- The unwind loop of `update`: for each header yielded by the backward
iterator, observe the signal (returning early when aborted), skip the fork
header, and otherwise emit `Remove` and move the cursor to the parent. -/
def removeLoop (fork : Header) (signal : Nat → Bool) :
    List Header → ChainProcessor → Nat → LoopOut
  | [], cp, k => ⟨cp, [], k, false⟩
  | h :: rest, cp, k =>
    if signal k then ⟨cp, [TraceItem.check true], k + 1, true⟩
    else if h.hash = fork.hash then
      let r := removeLoop fork signal rest cp (k + 1)
      ⟨r.cp, TraceItem.check false :: r.trace, r.checks, r.aborted⟩
    else
      let cp' := { cp with hash := some h.previousBlockHash,
                           sequence := some (h.sequence - 1) }
      let r := removeLoop fork signal rest cp' (k + 1)
      ⟨r.cp, TraceItem.check false :: TraceItem.remove h :: r.trace, r.checks, r.aborted⟩

/-- The rewind loop of `update`: for each header yielded by the forward
iterator, observe the signal (returning early when aborted), skip the fork
header, and otherwise emit `Add` and move the cursor onto the header. -/
def addLoop (fork : Header) (signal : Nat → Bool) :
    List Header → ChainProcessor → Nat → LoopOut
  | [], cp, k => ⟨cp, [], k, false⟩
  | h :: rest, cp, k =>
    if signal k then ⟨cp, [TraceItem.check true], k + 1, true⟩
    else if h.hash = fork.hash then
      let r := addLoop fork signal rest cp (k + 1)
      ⟨r.cp, TraceItem.check false :: r.trace, r.checks, r.aborted⟩
    else
      let cp' := { cp with hash := some h.hash, sequence := some h.sequence }
      let r := addLoop fork signal rest cp' (k + 1)
      ⟨r.cp, TraceItem.check false :: TraceItem.add h :: r.trace, r.checks, r.aborted⟩

/-- Successful result of an `update` pass: the processor state at return,
the instrumented trace, the log messages written during the pass, and the
returned `hashChanged` flag. -/
structure UpdateOk where
  cp : ChainProcessor
  trace : List TraceItem
  logs : List String
  hashChanged : Bool
deriving DecidableEq, Repr

/-- A thrown assertion from an `update` pass: the message, the processor
state at the moment of the throw, and the trace produced before it. -/
structure UpdateErr where
  msg : String
  cp : ChainProcessor
  trace : List TraceItem
deriving DecidableEq, Repr

/-- The `hashChanged` value computed at the return sites of `update`:
`!oldHash || !this.hash.equals(oldHash)`. -/
def hashChangedOf (oldHash : Option Nat) (cp : ChainProcessor) : Bool :=
  oldHash.isNone || decide (cp.hash ≠ oldHash)

/-- The bootstrap block at the top of `update`: an unseeded cursor emits
`Add(genesis)` and becomes seeded at the genesis position; a seeded cursor
is untouched. -/
def seedBoot (cp : ChainProcessor) : ChainProcessor × List TraceItem :=
  match cp.hash with
  | none => ({ cp with hash := some cp.chain.genesis.hash,
                       sequence := some cp.chain.genesis.sequence },
             [TraceItem.add cp.chain.genesis])
  | some _ => (cp, [])

/-- One `update` pass of the chain processor, following the source line by
line: bootstrap an unseeded cursor, sample the head once, return early when
the head equals the cursor, look the cursor's header up (throwing when it
is absent), compute the fork (returning early when there is none), run the
unwind loop unless the relation is linear, then run the rewind loop. -/
def ChainProcessor.update (signal : Nat → Bool) (cp0 : ChainProcessor) :
    Except UpdateErr UpdateOk :=
  let chain := cp0.chain
  let oldHash := cp0.hash
  let s := seedBoot cp0
  let cp1 := s.1
  let tr0 := s.2
  let h1 := cp0.hash.getD chain.genesis.hash
  let chainHead := chain.head
  if chainHead.hash = h1 then
    Except.ok ⟨cp1, tr0, [], false⟩
  else
    match chain.getHeader h1 with
    | none => Except.error ⟨"Chain processor head not found in chain", cp1, tr0⟩
    | some current =>
      let fr := chain.findFork current chainHead
      match fr.1 with
      | none => Except.ok ⟨cp1, tr0, [], false⟩
      | some fork =>
        let ar : LoopOut :=
          if fr.2 then ⟨cp1, [], 0, false⟩
          else removeLoop fork signal (chain.iterateFrom current fork) cp1 0
        if ar.aborted then
          Except.ok ⟨ar.cp, tr0 ++ ar.trace, [], hashChangedOf oldHash ar.cp⟩
        else
          let aa := addLoop fork signal (chain.iterateTo fork chainHead) ar.cp ar.checks
          Except.ok ⟨aa.cp, tr0 ++ ar.trace ++ aa.trace, [],
            hashChangedOf oldHash aa.cp⟩

deriving instance DecidableEq for Except

/-- The processor state and trace of an `update` outcome, whether it
returned normally or threw. -/
def updState (r : Except UpdateErr UpdateOk) : ChainProcessor × List TraceItem :=
  match r with
  | .ok u => (u.cp, u.trace)
  | .error e => (e.cp, e.trace)

/-- A signal that is never aborted. -/
def sigFalse : Nat → Bool := fun _ => false

/-- A signal that is aborted from the start and stays aborted. -/
def sigTrue : Nat → Bool := fun _ => true

/-- Whether a trace item is an `Add` event for the given hash. -/
def isAddOf (hh : Nat) : TraceItem → Bool
  | .add h => h.hash == hh
  | _ => false

/-- Whether a trace item is a `Remove` event for the given hash. -/
def isRemOf (hh : Nat) : TraceItem → Bool
  | .remove h => h.hash == hh
  | _ => false

/-- The running balance of a header hash in an event stream: the number of
`Add` events for it minus the number of `Remove` events for it. -/
def evCount (evs : List TraceItem) (hh : Nat) : Int :=
  (evs.countP (isAddOf hh) : Int) - (evs.countP (isRemOf hh) : Int)

/-- An event stream is balanced when, at every prefix, the balance of every
header hash is zero or one — in particular never negative. -/
def BalancedAt (evs : List TraceItem) : Prop :=
  ∀ n hh, 0 ≤ evCount (evs.take n) hh ∧ evCount (evs.take n) hh ≤ 1

/-- Every emitted event in the trace is immediately preceded by an
observation of the signal that returned `false`: a `check false` may be
followed by one emission, a `check` may stand on its own, and nothing else
may occur. -/
def guardedB : List TraceItem → Bool
  | [] => true
  | TraceItem.check false :: TraceItem.add _ :: t => guardedB t
  | TraceItem.check false :: TraceItem.remove _ :: t => guardedB t
  | TraceItem.check _ :: t => guardedB t
  | TraceItem.add _ :: _ => false
  | TraceItem.remove _ :: _ => false

/-- Whether the first trace item, if any, is not an emission. -/
def headNotEmit : List TraceItem → Bool
  | [] => true
  | x :: _ => !x.isEmit

/-- Whether an `update` outcome is a thrown assertion. -/
def isErr : Except UpdateErr UpdateOk → Bool
  | .error _ => true
  | .ok _ => false

/-- Whether a trace item is an `Add` event. -/
def TraceItem.isAdd : TraceItem → Bool
  | .add _ => true
  | _ => false

/-- Whether a trace item is a `Remove` event. -/
def TraceItem.isRem : TraceItem → Bool
  | .remove _ => true
  | _ => false

/-- Two processors agree on everything except the cursor: same chain
reference, logger, and registered handlers of both event sinks. -/
def sameFrame (a b : ChainProcessor) : Prop :=
  a.chain = b.chain ∧ a.logger = b.logger ∧ a.onAdd = b.onAdd ∧ a.onRemove = b.onRemove

/-- The two early-return conditions of `update` that report no progress:
the sampled head already equals the (possibly just-seeded) cursor hash, or
the cursor's header resolves but shares no fork with the head. -/
def earlyNoProgress (cp : ChainProcessor) : Prop :=
  cp.chain.head.hash = cp.hash.getD cp.chain.genesis.hash ∨
  (∃ c, cp.chain.getHeader (cp.hash.getD cp.chain.genesis.hash) = some c ∧
    (cp.chain.findFork c cp.chain.head).1 = none)

/-- A trace in which every emitted event is immediately preceded by a
signal observation that returned `false`: a signal observation may stand on
its own, and an emission may only appear directly after a `check false`. -/
inductive Guarded : List TraceItem → Prop where
  | nil : Guarded []
  | chk (b : Bool) {t : List TraceItem} : Guarded t → Guarded (TraceItem.check b :: t)
  | emitAdd (h : Header) {t : List TraceItem} :
      Guarded t → Guarded (TraceItem.check false :: TraceItem.add h :: t)
  | emitRem (h : Header) {t : List TraceItem} :
      Guarded t → Guarded (TraceItem.check false :: TraceItem.remove h :: t)

/-- `ParentPath bc a b l`: `l` is the walk from `a` down to `b` along
parent pointers resolved through the store, `a` first and `b` last, with
no intermediate header sharing `b`'s hash. -/
inductive ParentPath (bc : Blockchain) : Header → Header → List Header → Prop where
  | refl (a : Header) : ParentPath bc a a [a]
  | step {a p b : Header} {l : List Header} :
      a.hash ≠ b.hash →
      bc.getHeader a.previousBlockHash = some p →
      ParentPath bc p b l →
      ParentPath bc a b (a :: l)

/-- `UpChain bc c l`: `l` is a forward chain of stored headers growing up
from `c`, each linking by parent pointer to the element before it. -/
inductive UpChain (bc : Blockchain) : Header → List Header → Prop where
  | nil (c : Header) : UpChain bc c []
  | cons {c u : Header} {l : List Header} :
      u ∈ bc.headers →
      bc.getHeader u.previousBlockHash = some c →
      UpChain bc u l →
      UpChain bc c (u :: l)

/-- A well-formed store, following the data model of the spec: hashes
identify headers, genesis and head are stored, genesis has height one and
no stored parent, heights are at least one, and every non-genesis header
has a stored parent one height below it. -/
structure WF (bc : Blockchain) : Prop where
  inj : ∀ h₁ ∈ bc.headers, ∀ h₂ ∈ bc.headers, h₁.hash = h₂.hash → h₁ = h₂
  gmem : bc.genesis ∈ bc.headers
  hmem : bc.head ∈ bc.headers
  gseq : bc.genesis.sequence = 1
  gpar : bc.getHeader bc.genesis.previousBlockHash = none
  minSeq : ∀ h ∈ bc.headers, 1 ≤ h.sequence
  pseq : ∀ h ∈ bc.headers, h.hash ≠ bc.genesis.hash →
    (bc.getHeader h.previousBlockHash).map Header.sequence = some (h.sequence - 1)

/-- The cursor's view of the canonical branch: an unseeded cursor has the
empty path; a seeded cursor points (by hash) to a stored header whose walk
down to genesis is `P`. -/
def CursorPath (cp : ChainProcessor) (P : List Header) : Prop :=
  match cp.hash with
  | none => P = []
  | some hh => ∃ c, c ∈ cp.chain.headers ∧ c.hash = hh ∧
      ParentPath cp.chain c cp.chain.genesis P

/-- The edit-script invariant tying the events emitted so far to the
cursor: replaying the events yields exactly the headers on the path from
genesis to the cursor, each with balance one, and everything else with
balance zero. -/
def Inv (cp : ChainProcessor) (evs : List TraceItem) : Prop :=
  ∃ P, CursorPath cp P ∧ (P.map Header.hash).Nodup ∧
    ∀ hh, evCount evs hh = if hh ∈ P.map Header.hash then 1 else 0

/-- Outcome predicate for the unwind loop: the chain is untouched, the
extended stream stays balanced, the edit-script invariant holds at exit,
and a non-cancelled exit has moved the cursor to the fork with the
replayed set being the genesis-to-fork path. -/
def RemOutOK (bc : Blockchain) (fork : Header) (Q : List Header)
    (evs : List TraceItem) (r : LoopOut) : Prop :=
  r.cp.chain = bc ∧ BalancedAt (evs ++ r.trace) ∧ Inv r.cp (evs ++ r.trace) ∧
  (r.aborted = false → r.cp.hash = some fork.hash ∧
    ∀ hh, evCount (evs ++ r.trace) hh =
      if hh ∈ (fork :: Q).map Header.hash then 1 else 0)

/-- Outcome predicate for the rewind loop: the chain is untouched, the
extended stream stays balanced, and the edit-script invariant holds at
exit. -/
def AddOutOK (bc : Blockchain) (evs : List TraceItem) (r : LoopOut) : Prop :=
  r.cp.chain = bc ∧ BalancedAt (evs ++ r.trace) ∧ Inv r.cp (evs ++ r.trace)

/-- Outcome predicate for a whole `update` pass: the edit-script invariant
and prefix balance hold for the state and extended stream. -/
def StepOK (evs : List TraceItem) (s : ChainProcessor × List TraceItem) : Prop :=
  Inv s.1 (evs ++ s.2) ∧ BalancedAt (evs ++ s.2)

/-- The states reachable by a processor that starts unseeded on a
well-formed store, under any interleaving of `update` passes (with any
cancellation signals) and store mutations that append headers and move the
head while keeping the store well-formed.  The trace accumulates every
emitted event of every pass. -/
inductive Reachable : ChainProcessor → List TraceItem → Prop where
  | init (lg : Option String) (bc : Blockchain) (hwf : WF bc) :
      Reachable (ChainProcessor.create lg bc none) []
  | advance {cp : ChainProcessor} {evs : List TraceItem} (signal : Nat → Bool) :
      Reachable cp evs →
      Reachable (updState (ChainProcessor.update signal cp)).1
        (evs ++ (updState (ChainProcessor.update signal cp)).2)
  | mutate {cp : ChainProcessor} {evs : List TraceItem}
      (ext : List Header) (newHead : Header)
      (hwf : WF ⟨cp.chain.genesis, newHead, cp.chain.headers ++ ext⟩) :
      Reachable cp evs →
      Reachable { cp with chain := ⟨cp.chain.genesis, newHead, cp.chain.headers ++ ext⟩ } evs

/-- Genesis header of the concrete scenarios. -/
def gH : Header := ⟨1, 0, 1⟩

/-- Header A1 of the concrete scenarios. -/
def a1H : Header := ⟨11, 1, 2⟩

/-- Header A2 of the concrete scenarios. -/
def a2H : Header := ⟨12, 11, 3⟩

/-- Header A3 of the concrete scenarios. -/
def a3H : Header := ⟨13, 12, 4⟩

/-- Header B1 of the concrete scenarios. -/
def b1H : Header := ⟨21, 1, 2⟩

/-- Header B2 of the concrete scenarios. -/
def b2H : Header := ⟨22, 21, 3⟩

/-- Header B3 of the concrete scenarios. -/
def b3H : Header := ⟨23, 22, 4⟩

/-- Header B4 of the concrete scenarios. -/
def b4H : Header := ⟨24, 23, 5⟩

/-- The depth-three reorganization store: both branches G→A1→A2→A3 and
G→B1→B2→B3→B4 are stored and the head sits at B4. -/
def reorgChain : Blockchain :=
  ⟨gH, b4H, [gH, a1H, a2H, a3H, b1H, b2H, b3H, b4H]⟩

/-- A processor on the reorganization store whose cursor is at A3. -/
def cpA3 : ChainProcessor := ChainProcessor.create none reorgChain (some 13)

/-- A store holding only genesis, with the head at genesis. -/
def singleChain : Blockchain := ⟨gH, gH, [gH]⟩

/-- An unseeded processor on the genesis-only store. -/
def cpUnseeded : ChainProcessor := ChainProcessor.create none singleChain none

/-- A processor on the genesis-only store seeded through the constructor at
the genesis hash. -/
def cpSeedG : ChainProcessor := ChainProcessor.create none singleChain (some 1)

/-- A store with branches G→A1 and G→B1, head at B1. -/
def smallChain : Blockchain := ⟨gH, b1H, [gH, a1H, b1H]⟩

/-- A processor on `smallChain` seeded through the constructor at A1. -/
def cpSeedA1 : ChainProcessor := ChainProcessor.create none smallChain (some 11)

/-- A header from a tree disjoint from genesis. -/
def cX : Header := ⟨31, 30, 1⟩

/-- A store whose head C1 belongs to a tree sharing no ancestor with the
cursor's branch G→A1. -/
def disjChain : Blockchain := ⟨gH, cX, [gH, a1H, cX]⟩

/-- A processor on the disjoint-fork store with cursor at A1. -/
def cpDisj : ChainProcessor := ChainProcessor.create none disjChain (some 11)

/-- A store that does not contain its own genesis header. -/
def noGenChain : Blockchain := ⟨gH, cX, [cX]⟩

/-- An unseeded processor on the store missing its genesis header. -/
def cpNoGen : ChainProcessor := ChainProcessor.create none noGenChain none

/-- A processor on the store missing-header store seeded at an absent
hash. -/
def cpMissing : ChainProcessor := ChainProcessor.create none noGenChain (some 99)

/-- C1: with the cursor at A3 on G→A1→A2→A3 and the head moved to B4 on
G→B1→B2→B3→B4, a single non-cancelled `update` emits exactly
Remove(A3), Remove(A2), Remove(A1), Add(B1), Add(B2), Add(B3), Add(B4) in
that order, every Remove precedes every Add, and no event is emitted for
the fork header G. -/
theorem c1_reorg_depth_three :
    emits (updState (ChainProcessor.update sigFalse cpA3)).2 =
      [TraceItem.remove a3H, TraceItem.remove a2H, TraceItem.remove a1H,
       TraceItem.add b1H, TraceItem.add b2H, TraceItem.add b3H, TraceItem.add b4H] ∧
    emits (updState (ChainProcessor.update sigFalse cpA3)).2 =
      (emits (updState (ChainProcessor.update sigFalse cpA3)).2).filter TraceItem.isRem ++
      (emits (updState (ChainProcessor.update sigFalse cpA3)).2).filter TraceItem.isAdd ∧
    (∀ t ∈ emits (updState (ChainProcessor.update sigFalse cpA3)).2,
      t ≠ TraceItem.add gH ∧ t ≠ TraceItem.remove gH) ∧
    isErr (ChainProcessor.update sigFalse cpA3) = false := by decide

/-- C9: when the seeded cursor hash equals the hash of the store's current
head, `update` returns `hashChanged := false`, emits no events, writes no
logs, and leaves the processor untouched. -/
theorem c9_idempotent (signal : Nat → Bool) (cp : ChainProcessor)
    (h : cp.hash = some cp.chain.head.hash) :
    ChainProcessor.update signal cp = Except.ok ⟨cp, [], [], false⟩ := by
  simp [ChainProcessor.update, seedBoot, h]

/-- Witness for C9 at the genesis-only store with the cursor seeded at the
genesis hash. -/
theorem c9_witness : ChainProcessor.update sigFalse cpSeedG = Except.ok ⟨cpSeedG, [], [], false⟩ :=
  c9_idempotent sigFalse cpSeedG (by decide)

/-- C2 counterexample: a processor seeded through the constructor at the
head's hash completes a non-cancelled `update`, yet its returned cursor
sequence is null while the sampled head's sequence is one — the cursor
does not equal the head as a (hash, sequence) pair. -/
theorem c2_cex : isErr (ChainProcessor.update sigFalse cpSeedG) = false ∧
    (updState (ChainProcessor.update sigFalse cpSeedG)).1.sequence = none ∧
    singleChain.head.sequence = 1 := by decide

/-- C3 counterexample: a processor seeded through the constructor at A1
emits Remove(A1) during a reorganization although no Add(A1) was ever
emitted, so the balance of A1 (hash 11) is minus one after two trace
items. -/
theorem c3_cex : isErr (ChainProcessor.update sigFalse cpSeedA1) = false ∧
    evCount ((updState (ChainProcessor.update sigFalse cpSeedA1)).2.take 2) 11 = -1 ∧
    ¬ (0 ≤ evCount ((updState (ChainProcessor.update sigFalse cpSeedA1)).2.take 2) 11) := by decide

/-- C5 counterexample: on a genesis-only store an unseeded processor is
seeded during the call (its cursor hash changes from null to the genesis
hash), yet `update` returns `hashChanged := false`. -/
theorem c5_cex : ChainProcessor.update sigFalse cpUnseeded =
      Except.ok ⟨{ cpUnseeded with hash := some 1, sequence := some 1 },
        [TraceItem.add gH], [], false⟩ ∧
    ({ cpUnseeded with hash := some 1, sequence := some 1 } : ChainProcessor).hash ≠
      cpUnseeded.hash := by decide

/-- C6 counterexample: immediately after construction with a non-null head
hash the cursor is neither Unseeded (both components null) nor At (both
components non-null): the hash is set but the sequence is still null. -/
theorem c6_cex : ¬ ((cpSeedA1.hash = none ∧ cpSeedA1.sequence = none) ∨
    (cpSeedA1.hash ≠ none ∧ cpSeedA1.sequence ≠ none)) := by decide

/-- C7 counterexample: when `get_header(cursor.hash)` is absent for an
entry-unseeded processor, the call does surface an error, but the cursor
HAS been mutated by the call — the bootstrap seeded it to genesis before
the lookup failed. -/
theorem c7_cex : isErr (ChainProcessor.update sigFalse cpNoGen) = true ∧
    (updState (ChainProcessor.update sigFalse cpNoGen)).1.hash ≠ cpNoGen.hash := by decide

/-- C8 counterexample: with `find_fork` returning none, `update` returns
`hashChanged := false`, emits nothing and leaves the cursor unchanged, but
its log output is empty — no warning is logged, contrary to the claim. -/
theorem c8_cex : (disjChain.findFork a1H cX).1 = none ∧
    ChainProcessor.update sigFalse cpDisj = Except.ok ⟨cpDisj, [], [], false⟩ := by decide

/-- C4 counterexample: with the cancellation signal already aborted when
the call begins, an unseeded processor still emits the bootstrap
Add(genesis) — the signal is never checked before that emission. -/
theorem c4_cex : sigTrue 0 = true ∧
    emits (updState (ChainProcessor.update sigTrue
      (ChainProcessor.create none reorgChain none))).2 = [TraceItem.add gH] := by decide

lemma removeLoop_shape (fork : Header) (signal : Nat → Bool) :
    ∀ (l : List Header) (cp : ChainProcessor) (k : Nat),
      (removeLoop fork signal l cp k).cp = cp ∨
      ∃ x y, (removeLoop fork signal l cp k).cp =
        { cp with hash := some x, sequence := some y } := by
  intro l
  induction l with
  | nil => intro cp k; left; rfl
  | cons h rest ih =>
    intro cp k
    simp only [removeLoop]
    split
    · left; rfl
    · split
      · exact ih cp (k + 1)
      · have hrec := ih { cp with hash := some h.previousBlockHash, sequence := some (h.sequence - 1) } (k + 1)
        rcases hrec with h1 | ⟨x, y, h1⟩
        · right; exact ⟨h.previousBlockHash, h.sequence - 1, h1⟩
        · right; exact ⟨x, y, h1⟩

lemma addLoop_shape (fork : Header) (signal : Nat → Bool) :
    ∀ (l : List Header) (cp : ChainProcessor) (k : Nat),
      (addLoop fork signal l cp k).cp = cp ∨
      ∃ x y, (addLoop fork signal l cp k).cp =
        { cp with hash := some x, sequence := some y } := by
  intro l
  induction l with
  | nil => intro cp k; left; rfl
  | cons h rest ih =>
    intro cp k
    simp only [addLoop]
    split
    · left; rfl
    · split
      · exact ih cp (k + 1)
      · have hrec := ih { cp with hash := some h.hash, sequence := some h.sequence } (k + 1)
        rcases hrec with h1 | ⟨x, y, h1⟩
        · right; exact ⟨h.hash, h.sequence, h1⟩
        · right; exact ⟨x, y, h1⟩

lemma seedBoot_shape (cp : ChainProcessor) :
    (seedBoot cp).1 = cp ∨
    ∃ x y, (seedBoot cp).1 = { cp with hash := some x, sequence := some y } := by
  cases hc : cp.hash with
  | none =>
    right
    exact ⟨cp.chain.genesis.hash, cp.chain.genesis.sequence, by simp [seedBoot, hc]⟩
  | some h => left; simp [seedBoot, hc]

/-- The processor state of any `update` outcome differs from the input at
most in the cursor fields. -/
lemma update_shape (signal : Nat → Bool) (cp : ChainProcessor) :
    (updState (ChainProcessor.update signal cp)).1 = cp ∨
    ∃ x y, (updState (ChainProcessor.update signal cp)).1 =
      { cp with hash := some x, sequence := some y } := by
  have hcomp : ∀ (a : ChainProcessor),
      (a = cp ∨ ∃ x y, a = { cp with hash := some x, sequence := some y }) →
      ∀ (b : ChainProcessor),
      (b = a ∨ ∃ x y, b = { a with hash := some x, sequence := some y }) →
      (b = cp ∨ ∃ x y, b = { cp with hash := some x, sequence := some y }) := by
    rintro a (rfl | ⟨x, y, rfl⟩) b (rfl | ⟨x', y', rfl⟩)
    · left; rfl
    · right; exact ⟨x', y', rfl⟩
    · right; exact ⟨x, y, rfl⟩
    · right; exact ⟨x', y', rfl⟩
  by_cases hhead : cp.chain.head.hash = cp.hash.getD cp.chain.genesis.hash
  · simp only [ChainProcessor.update, updState, if_pos hhead]
    exact seedBoot_shape cp
  · cases hget : cp.chain.getHeader (cp.hash.getD cp.chain.genesis.hash) with
    | none =>
      simp only [ChainProcessor.update, updState, if_neg hhead, hget]
      exact seedBoot_shape cp
    | some current =>
      cases hfork : (cp.chain.findFork current cp.chain.head).1 with
      | none =>
        simp only [ChainProcessor.update, updState, if_neg hhead, hget, hfork]
        exact seedBoot_shape cp
      | some fork =>
        by_cases hlin : (cp.chain.findFork current cp.chain.head).2 = true
        · simp only [ChainProcessor.update, updState, if_neg hhead, hget, hfork,
            if_pos hlin, if_neg (by simp : ¬ (false = true))]
          exact hcomp _ (seedBoot_shape cp) _ (addLoop_shape fork signal _ _ _)
        · cases habort : (removeLoop fork signal
            (cp.chain.iterateFrom current fork) (seedBoot cp).1 0).aborted with
          | true =>
            simp only [ChainProcessor.update, updState, if_neg hhead, hget, hfork,
              if_neg hlin, habort, if_pos rfl]
            exact hcomp _ (seedBoot_shape cp) _
              (removeLoop_shape fork signal _ _ _)
          | false =>
            simp only [ChainProcessor.update, updState, if_neg hhead, hget, hfork,
              if_neg hlin, habort, if_neg (by simp : ¬ (false = true))]
            exact hcomp _ (hcomp _ (seedBoot_shape cp) _
              (removeLoop_shape fork signal _ _ _)) _
              (addLoop_shape fork signal _ _ _)

/-- C10: every `update` call mutates only the cursor fields: the chain
reference, the logger, and the `onAdd`/`onRemove` event sinks with their
registered handlers are identical between entry and return, whether the
call returns normally or throws. -/
theorem c10_frame (signal : Nat → Bool) (cp : ChainProcessor) :
    sameFrame (updState (ChainProcessor.update signal cp)).1 cp := by
  rcases update_shape signal cp with h | ⟨x, y, h⟩ <;>
    rw [h] <;> exact ⟨rfl, rfl, rfl, rfl⟩

lemma update_head_eq (signal : Nat → Bool) (cp : ChainProcessor)
    (hhead : cp.chain.head.hash = cp.hash.getD cp.chain.genesis.hash) :
    ChainProcessor.update signal cp =
      Except.ok ⟨(seedBoot cp).1, (seedBoot cp).2, [], false⟩ := by
  simp only [ChainProcessor.update, if_pos hhead]

lemma update_missing_eq (signal : Nat → Bool) (cp : ChainProcessor)
    (hhead : ¬ cp.chain.head.hash = cp.hash.getD cp.chain.genesis.hash)
    (hget : cp.chain.getHeader (cp.hash.getD cp.chain.genesis.hash) = none) :
    ChainProcessor.update signal cp =
      Except.error ⟨"Chain processor head not found in chain",
        (seedBoot cp).1, (seedBoot cp).2⟩ := by
  simp only [ChainProcessor.update, if_neg hhead, hget]

lemma update_nofork_eq (signal : Nat → Bool) (cp : ChainProcessor) (current : Header)
    (hhead : ¬ cp.chain.head.hash = cp.hash.getD cp.chain.genesis.hash)
    (hget : cp.chain.getHeader (cp.hash.getD cp.chain.genesis.hash) = some current)
    (hfork : (cp.chain.findFork current cp.chain.head).1 = none) :
    ChainProcessor.update signal cp =
      Except.ok ⟨(seedBoot cp).1, (seedBoot cp).2, [], false⟩ := by
  simp only [ChainProcessor.update, if_neg hhead, hget, hfork]

lemma update_main_eq (signal : Nat → Bool) (cp : ChainProcessor) (current fork : Header)
    (hhead : ¬ cp.chain.head.hash = cp.hash.getD cp.chain.genesis.hash)
    (hget : cp.chain.getHeader (cp.hash.getD cp.chain.genesis.hash) = some current)
    (hfork : (cp.chain.findFork current cp.chain.head).1 = some fork) :
    ChainProcessor.update signal cp =
      (let ar : LoopOut :=
        if (cp.chain.findFork current cp.chain.head).2 then ⟨(seedBoot cp).1, [], 0, false⟩
        else removeLoop fork signal (cp.chain.iterateFrom current fork) (seedBoot cp).1 0
      if ar.aborted then
        Except.ok ⟨ar.cp, (seedBoot cp).2 ++ ar.trace, [], hashChangedOf cp.hash ar.cp⟩
      else
        let aa := addLoop fork signal (cp.chain.iterateTo fork cp.chain.head) ar.cp ar.checks
        Except.ok ⟨aa.cp, (seedBoot cp).2 ++ ar.trace ++ aa.trace, [],
          hashChangedOf cp.hash aa.cp⟩) := by
  simp only [ChainProcessor.update, if_neg hhead, hget, hfork]

lemma seedBoot_of_some (cp : ChainProcessor) (h : cp.hash.isSome = true) :
    (seedBoot cp).1 = cp ∧ (seedBoot cp).2 = [] := by
  cases hc : cp.hash with
  | none => rw [hc] at h; cases h
  | some x => constructor <;> simp [seedBoot, hc]

lemma seedBoot_hash_isSome (cp : ChainProcessor) :
    ((seedBoot cp).1).hash.isSome = true := by
  cases hc : cp.hash <;> simp [seedBoot, hc]

/-- C7 (amended): if `get_header` of the (possibly just-seeded) cursor hash
is absent, `update` surfaces the assertion as an error; the processor state
carried out is exactly the entry state for a processor seeded at entry — an
unseeded entry has already been seeded to genesis by the bootstrap, and
that mutation persists. -/
theorem c7_amended (signal : Nat → Bool) (cp : ChainProcessor)
    (hhead : ¬ cp.chain.head.hash = cp.hash.getD cp.chain.genesis.hash)
    (habs : cp.chain.getHeader (cp.hash.getD cp.chain.genesis.hash) = none) :
    ChainProcessor.update signal cp =
      Except.error ⟨"Chain processor head not found in chain",
        (seedBoot cp).1, (seedBoot cp).2⟩ ∧
    (cp.hash.isSome = true → (seedBoot cp).1 = cp ∧ (seedBoot cp).2 = []) :=
  ⟨update_missing_eq signal cp hhead habs, fun h => seedBoot_of_some cp h⟩

/-- Witness for C7 at a seeded processor whose cursor hash is absent from
the store: the call errors and the carried-out state equals the entry
state. -/
theorem c7_witness :
    ChainProcessor.update sigFalse cpMissing =
      Except.error ⟨"Chain processor head not found in chain",
        (seedBoot cpMissing).1, (seedBoot cpMissing).2⟩ ∧
    (cpMissing.hash.isSome = true →
      (seedBoot cpMissing).1 = cpMissing ∧ (seedBoot cpMissing).2 = []) :=
  c7_amended sigFalse cpMissing (by decide) (by decide)

/-- C8 (amended): when `find_fork` returns none, `update` returns
`hashChanged := false` with an empty log output (no warning is logged, the
code has no logging call in `update`); the processor and trace carried out
are exactly those of the bootstrap, so a processor seeded at entry is
unchanged and emits nothing. -/
theorem c8_amended (signal : Nat → Bool) (cp : ChainProcessor) (current : Header)
    (hhead : ¬ cp.chain.head.hash = cp.hash.getD cp.chain.genesis.hash)
    (hget : cp.chain.getHeader (cp.hash.getD cp.chain.genesis.hash) = some current)
    (hfork : (cp.chain.findFork current cp.chain.head).1 = none) :
    ChainProcessor.update signal cp =
      Except.ok ⟨(seedBoot cp).1, (seedBoot cp).2, [], false⟩ ∧
    (cp.hash.isSome = true → (seedBoot cp).1 = cp ∧ (seedBoot cp).2 = []) :=
  ⟨update_nofork_eq signal cp current hhead hget hfork, fun h => seedBoot_of_some cp h⟩

/-- Witness for C8 at the disjoint-fork store with the cursor seeded at
A1. -/
theorem c8_witness :
    ChainProcessor.update sigFalse cpDisj =
      Except.ok ⟨(seedBoot cpDisj).1, (seedBoot cpDisj).2, [], false⟩ ∧
    (cpDisj.hash.isSome = true →
      (seedBoot cpDisj).1 = cpDisj ∧ (seedBoot cpDisj).2 = []) :=
  c8_amended sigFalse cpDisj a1H (by decide) (by decide) (by decide)

/-- C6 (amended): construction with a non-null head hash yields a cursor
with non-null hash but NULL sequence (so the claimed Unseeded/At pairing
fails right after construction); construction without a head hash yields
both components null; and across any `update` call each cursor component
either keeps its entry value or is non-null at return — in particular a
non-null hash never becomes null again. -/
theorem c6_amended (signal : Nat → Bool) (cp : ChainProcessor) :
    ((updState (ChainProcessor.update signal cp)).1.hash = cp.hash ∨
      (updState (ChainProcessor.update signal cp)).1.hash.isSome = true) ∧
    ((updState (ChainProcessor.update signal cp)).1.sequence = cp.sequence ∨
      (updState (ChainProcessor.update signal cp)).1.sequence.isSome = true) ∧
    (∀ (lg : Option String) (bc : Blockchain) (hh : Nat),
      (ChainProcessor.create lg bc (some hh)).hash = some hh ∧
      (ChainProcessor.create lg bc (some hh)).sequence = none) ∧
    (∀ (lg : Option String) (bc : Blockchain),
      (ChainProcessor.create lg bc none).hash = none ∧
      (ChainProcessor.create lg bc none).sequence = none) := by
  refine ⟨?_, ?_, fun lg bc hh => ⟨rfl, rfl⟩, fun lg bc => ⟨rfl, rfl⟩⟩ <;>
    rcases update_shape signal cp with h | ⟨x, y, h⟩ <;> rw [h]
  · left; rfl
  · right; rfl
  · left; rfl
  · right; rfl

lemma hashChangedOf_iff (old : Option Nat) (cpF : ChainProcessor)
    (h : cpF.hash.isSome = true) :
    hashChangedOf old cpF = true ↔ cpF.hash ≠ old := by
  cases old with
  | none => simp [hashChangedOf, Option.isSome_iff_ne_none.mp h]
  | some o => simp [hashChangedOf]

lemma removeLoop_hash_isSome (fork : Header) (signal : Nat → Bool)
    (l : List Header) (cp : ChainProcessor) (k : Nat) (h : cp.hash.isSome = true) :
    ((removeLoop fork signal l cp k).cp.hash).isSome = true := by
  rcases removeLoop_shape fork signal l cp k with he | ⟨x, y, he⟩ <;> rw [he]
  · exact h
  · rfl

lemma addLoop_hash_isSome (fork : Header) (signal : Nat → Bool)
    (l : List Header) (cp : ChainProcessor) (k : Nat) (h : cp.hash.isSome = true) :
    ((addLoop fork signal l cp k).cp.hash).isSome = true := by
  rcases addLoop_shape fork signal l cp k with he | ⟨x, y, he⟩ <;> rw [he]
  · exact h
  · rfl

lemma update_main_abort_eq (signal : Nat → Bool) (cp : ChainProcessor)
    (current fork : Header) (ar : LoopOut)
    (hhead : ¬ cp.chain.head.hash = cp.hash.getD cp.chain.genesis.hash)
    (hget : cp.chain.getHeader (cp.hash.getD cp.chain.genesis.hash) = some current)
    (hfork : (cp.chain.findFork current cp.chain.head).1 = some fork)
    (har : (if (cp.chain.findFork current cp.chain.head).2 then
        (⟨(seedBoot cp).1, [], 0, false⟩ : LoopOut)
      else removeLoop fork signal (cp.chain.iterateFrom current fork) (seedBoot cp).1 0) = ar)
    (hab : ar.aborted = true) :
    ChainProcessor.update signal cp =
      Except.ok ⟨ar.cp, (seedBoot cp).2 ++ ar.trace, [], hashChangedOf cp.hash ar.cp⟩ := by
  subst har
  simp only [ChainProcessor.update, if_neg hhead, hget, hfork, hab, if_true]

lemma update_main_noabort_eq (signal : Nat → Bool) (cp : ChainProcessor)
    (current fork : Header) (ar : LoopOut)
    (hhead : ¬ cp.chain.head.hash = cp.hash.getD cp.chain.genesis.hash)
    (hget : cp.chain.getHeader (cp.hash.getD cp.chain.genesis.hash) = some current)
    (hfork : (cp.chain.findFork current cp.chain.head).1 = some fork)
    (har : (if (cp.chain.findFork current cp.chain.head).2 then
        (⟨(seedBoot cp).1, [], 0, false⟩ : LoopOut)
      else removeLoop fork signal (cp.chain.iterateFrom current fork) (seedBoot cp).1 0) = ar)
    (hab : ar.aborted = false) :
    ChainProcessor.update signal cp =
      Except.ok ⟨(addLoop fork signal (cp.chain.iterateTo fork cp.chain.head) ar.cp ar.checks).cp,
        (seedBoot cp).2 ++ ar.trace ++
          (addLoop fork signal (cp.chain.iterateTo fork cp.chain.head) ar.cp ar.checks).trace,
        [], hashChangedOf cp.hash
          (addLoop fork signal (cp.chain.iterateTo fork cp.chain.head) ar.cp ar.checks).cp⟩ := by
  subst har
  simp only [ChainProcessor.update, if_neg hhead, hget, hfork, hab, Bool.false_eq_true,
    if_false]

/-- C5 (amended): `update` returns `hashChanged` true iff the cursor hash
at return differs from its value at entry, EXCEPT at the two no-progress
early returns (head already equal to the possibly-just-seeded cursor, and
missing fork), which return `hashChanged := false` even when the call
seeded an unseeded cursor — there the returned state is exactly the
bootstrap state. -/
theorem c5_amended (signal : Nat → Bool) (cp : ChainProcessor) (u : UpdateOk)
    (hok : ChainProcessor.update signal cp = Except.ok u) :
    (earlyNoProgress cp → u.hashChanged = false ∧ u.cp = (seedBoot cp).1) ∧
    (¬ earlyNoProgress cp → (u.hashChanged = true ↔ u.cp.hash ≠ cp.hash)) := by
  by_cases hhead : cp.chain.head.hash = cp.hash.getD cp.chain.genesis.hash
  · rw [update_head_eq signal cp hhead] at hok
    injection hok with hu
    subst hu
    exact ⟨fun _ => ⟨rfl, rfl⟩, fun hne => absurd (Or.inl hhead) hne⟩
  · cases hget : cp.chain.getHeader (cp.hash.getD cp.chain.genesis.hash) with
    | none =>
      rw [update_missing_eq signal cp hhead hget] at hok
      cases hok
    | some current =>
      cases hfork : (cp.chain.findFork current cp.chain.head).1 with
      | none =>
        rw [update_nofork_eq signal cp current hhead hget hfork] at hok
        injection hok with hu
        subst hu
        exact ⟨fun _ => ⟨rfl, rfl⟩,
          fun hne => absurd (Or.inr ⟨current, hget, hfork⟩) hne⟩
      | some fork =>
        have hnearly : ¬ earlyNoProgress cp := by
          rintro (h1 | ⟨c, hc, hf⟩)
          · exact hhead h1
          · rw [hget] at hc
            injection hc with hc'
            subst hc'
            rw [hfork] at hf
            cases hf
        refine ⟨fun h => absurd h hnearly, fun _ => ?_⟩
        set ar : LoopOut :=
          (if (cp.chain.findFork current cp.chain.head).2 then
            (⟨(seedBoot cp).1, [], 0, false⟩ : LoopOut)
          else removeLoop fork signal (cp.chain.iterateFrom current fork)
            (seedBoot cp).1 0) with har
        have harh : ar.cp.hash.isSome = true := by
          rw [har]
          split
          · exact seedBoot_hash_isSome cp
          · exact removeLoop_hash_isSome _ _ _ _ _ (seedBoot_hash_isSome cp)
        cases hab : ar.aborted with
        | true =>
          rw [update_main_abort_eq signal cp current fork ar hhead hget hfork
            har.symm hab] at hok
          injection hok with hu
          subst hu
          exact hashChangedOf_iff cp.hash ar.cp harh
        | false =>
          rw [update_main_noabort_eq signal cp current fork ar hhead hget hfork
            har.symm hab] at hok
          injection hok with hu
          subst hu
          exact hashChangedOf_iff cp.hash _ (addLoop_hash_isSome _ _ _ _ _ harh)

/-- Witness for C5 at a constructor-seeded processor whose hash equals the
head: the early-return clause of the amended claim applies. -/
theorem c5_witness :
    (earlyNoProgress cpSeedG → (⟨cpSeedG, [], [], false⟩ : UpdateOk).hashChanged = false ∧
      (⟨cpSeedG, [], [], false⟩ : UpdateOk).cp = (seedBoot cpSeedG).1) ∧
    (¬ earlyNoProgress cpSeedG → ((⟨cpSeedG, [], [], false⟩ : UpdateOk).hashChanged = true ↔
      (⟨cpSeedG, [], [], false⟩ : UpdateOk).cp.hash ≠ cpSeedG.hash)) :=
  c5_amended sigFalse cpSeedG ⟨cpSeedG, [], [], false⟩ (by decide)

lemma emits_append (a b : List TraceItem) : emits (a ++ b) = emits a ++ emits b :=
  List.filter_append ..

lemma emits_boot (cp : ChainProcessor) : emits (seedBoot cp).2 = (seedBoot cp).2 := by
  cases hc : cp.hash <;> simp [seedBoot, hc, emits, TraceItem.isEmit]

lemma removeLoop_guard (fork : Header) (signal : Nat → Bool) :
    ∀ (l : List Header) (cp : ChainProcessor) (k : Nat) (t : List TraceItem),
      Guarded t → Guarded ((removeLoop fork signal l cp k).trace ++ t) := by
  intro l
  induction l with
  | nil => intro cp k t ht; exact ht
  | cons h rest ih =>
    intro cp k t ht
    simp only [removeLoop]
    split
    · exact Guarded.chk true ht
    · split
      · exact Guarded.chk false (ih cp (k + 1) t ht)
      · exact Guarded.emitRem h (ih _ (k + 1) t ht)

lemma addLoop_guard (fork : Header) (signal : Nat → Bool) :
    ∀ (l : List Header) (cp : ChainProcessor) (k : Nat) (t : List TraceItem),
      Guarded t → Guarded ((addLoop fork signal l cp k).trace ++ t) := by
  intro l
  induction l with
  | nil => intro cp k t ht; exact ht
  | cons h rest ih =>
    intro cp k t ht
    simp only [addLoop]
    split
    · exact Guarded.chk true ht
    · split
      · exact Guarded.chk false (ih cp (k + 1) t ht)
      · exact Guarded.emitAdd h (ih _ (k + 1) t ht)

lemma removeLoop_sigTrue_emits (fork : Header) (l : List Header)
    (cp : ChainProcessor) (k : Nat) :
    emits ((removeLoop fork sigTrue l cp k).trace) = [] := by
  cases l with
  | nil => rfl
  | cons h rest => simp [removeLoop, sigTrue, emits, TraceItem.isEmit]

lemma addLoop_sigTrue_emits (fork : Header) (l : List Header)
    (cp : ChainProcessor) (k : Nat) :
    emits ((addLoop fork sigTrue l cp k).trace) = [] := by
  cases l with
  | nil => rfl
  | cons h rest => simp [addLoop, sigTrue, emits, TraceItem.isEmit]

/-- C4 (amended): within the unwind and rewind loops the signal is
observed once per yielded header, immediately before the skip test and the
emission, so after the bootstrap every emitted event is directly preceded
by a `check` that returned false; the bootstrap Add(genesis) of an
unseeded cursor is emitted WITHOUT any signal observation, so a call that
begins with the signal already aborted still emits exactly the bootstrap
Add on an unseeded cursor and nothing on a seeded one. -/
theorem c4_amended :
    (∀ (signal : Nat → Bool) (cp : ChainProcessor), ∃ rest,
      (updState (ChainProcessor.update signal cp)).2 = (seedBoot cp).2 ++ rest ∧
      Guarded rest) ∧
    (∀ cp : ChainProcessor,
      emits (updState (ChainProcessor.update sigTrue cp)).2 = (seedBoot cp).2) := by
  have main : ∀ (signal : Nat → Bool) (cp : ChainProcessor), ∃ rest,
      (updState (ChainProcessor.update signal cp)).2 = (seedBoot cp).2 ++ rest ∧
      Guarded rest ∧
      (signal = sigTrue → emits rest = []) := by
    intro signal cp
    by_cases hhead : cp.chain.head.hash = cp.hash.getD cp.chain.genesis.hash
    · rw [update_head_eq signal cp hhead]
      exact ⟨[], by simp [updState], Guarded.nil, fun _ => rfl⟩
    · cases hget : cp.chain.getHeader (cp.hash.getD cp.chain.genesis.hash) with
      | none =>
        rw [update_missing_eq signal cp hhead hget]
        exact ⟨[], by simp [updState], Guarded.nil, fun _ => rfl⟩
      | some current =>
        cases hfork : (cp.chain.findFork current cp.chain.head).1 with
        | none =>
          rw [update_nofork_eq signal cp current hhead hget hfork]
          exact ⟨[], by simp [updState], Guarded.nil, fun _ => rfl⟩
        | some fork =>
          set ar : LoopOut :=
            (if (cp.chain.findFork current cp.chain.head).2 then
              (⟨(seedBoot cp).1, [], 0, false⟩ : LoopOut)
            else removeLoop fork signal (cp.chain.iterateFrom current fork)
              (seedBoot cp).1 0) with har
          have harg : ∀ t, Guarded t → Guarded (ar.trace ++ t) := by
            intro t ht
            rw [har]
            split
            · exact ht
            · exact removeLoop_guard fork signal _ _ _ t ht
          have hare : signal = sigTrue → emits ar.trace = [] := by
            intro hsig
            rw [har]
            split
            · rfl
            · rw [hsig]; exact removeLoop_sigTrue_emits fork _ _ _
          cases hab : ar.aborted with
          | true =>
            rw [update_main_abort_eq signal cp current fork ar hhead hget hfork
              har.symm hab]
            refine ⟨ar.trace, by simp [updState], ?_, ?_⟩
            · have := harg [] Guarded.nil
              rwa [List.append_nil] at this
            · exact hare
          | false =>
            rw [update_main_noabort_eq signal cp current fork ar hhead hget hfork
              har.symm hab]
            refine ⟨ar.trace ++
              (addLoop fork signal (cp.chain.iterateTo fork cp.chain.head)
                ar.cp ar.checks).trace, by simp [updState], ?_, ?_⟩
            · refine harg _ ?_
              have := addLoop_guard fork signal
                (cp.chain.iterateTo fork cp.chain.head) ar.cp ar.checks [] Guarded.nil
              rwa [List.append_nil] at this
            · intro hsig
              rw [emits_append, hare hsig, hsig, addLoop_sigTrue_emits]
              rfl
  constructor
  · intro signal cp
    obtain ⟨rest, h1, h2, _⟩ := main signal cp
    exact ⟨rest, h1, h2⟩
  · intro cp
    obtain ⟨rest, h1, _, h3⟩ := main sigTrue cp
    rw [h1, emits_append, emits_boot, h3 rfl, List.append_nil]

lemma removeLoop_noabort_sigFalse (fork : Header) (signal : Nat → Bool)
    (hs : ∀ k, signal k = false) :
    ∀ (l : List Header) (cp : ChainProcessor) (k : Nat),
      (removeLoop fork signal l cp k).aborted = false := by
  intro l
  induction l with
  | nil => intro cp k; rfl
  | cons h rest ih =>
    intro cp k
    simp only [removeLoop, hs, Bool.false_eq_true, if_false]
    split
    · exact ih cp (k + 1)
    · exact ih _ (k + 1)

lemma addLoop_cons_eq (fork : Header) (signal : Nat → Bool) (h : Header)
    (rest : List Header) (cp : ChainProcessor) (k : Nat) :
    addLoop fork signal (h :: rest) cp k =
      if signal k then ⟨cp, [TraceItem.check true], k + 1, true⟩
      else if h.hash = fork.hash then
        ⟨(addLoop fork signal rest cp (k + 1)).cp,
         TraceItem.check false :: (addLoop fork signal rest cp (k + 1)).trace,
         (addLoop fork signal rest cp (k + 1)).checks,
         (addLoop fork signal rest cp (k + 1)).aborted⟩
      else
        ⟨(addLoop fork signal rest { cp with hash := some h.hash, sequence := some h.sequence } (k + 1)).cp,
         TraceItem.check false :: TraceItem.add h ::
           (addLoop fork signal rest { cp with hash := some h.hash, sequence := some h.sequence } (k + 1)).trace,
         (addLoop fork signal rest { cp with hash := some h.hash, sequence := some h.sequence } (k + 1)).checks,
         (addLoop fork signal rest { cp with hash := some h.hash, sequence := some h.sequence } (k + 1)).aborted⟩ := rfl

lemma addLoop_last_sigFalse (fork : Header) (signal : Nat → Bool)
    (hs : ∀ k, signal k = false) :
    ∀ (l : List Header) (cp : ChainProcessor) (k : Nat) (x : Header),
      l.getLast? = some x → ¬ x.hash = fork.hash →
      (addLoop fork signal l cp k).cp.hash = some x.hash ∧
      (addLoop fork signal l cp k).cp.sequence = some x.sequence := by
  intro l
  induction l with
  | nil => intro cp k x hl; cases hl
  | cons h rest ih =>
    intro cp k x hl hx
    rw [addLoop_cons_eq, hs k, if_neg (by simp : ¬ (false = true))]
    cases rest with
    | nil =>
      rw [List.getLast?_singleton] at hl
      injection hl with hl'
      subst hl'
      rw [if_neg hx]
      exact ⟨rfl, rfl⟩
    | cons y rest' =>
      have hl2 : (y :: rest').getLast? = some x := by
        rwa [List.getLast?_cons_cons] at hl
      split
      · exact ih cp (k + 1) x hl2 hx
      · exact ih _ (k + 1) x hl2 hx

/-- C2 (amended): a non-cancelled `update` that passes the idempotence
check, finds a fork, and whose forward iterator from the fork ends at the
sampled head (the head not being the fork itself, i.e. the store is
consistent and the head did not move backward) returns with the cursor
equal to the sampled head as a (hash, sequence) pair.  At the idempotence
early return only the hash is guaranteed: the sequence keeps its entry
value, which is null for a constructor-seeded cursor. -/
theorem c2_amended (signal : Nat → Bool) (cp : ChainProcessor) (current fork : Header)
    (hs : ∀ k, signal k = false)
    (hhead : ¬ cp.chain.head.hash = cp.hash.getD cp.chain.genesis.hash)
    (hget : cp.chain.getHeader (cp.hash.getD cp.chain.genesis.hash) = some current)
    (hfork : (cp.chain.findFork current cp.chain.head).1 = some fork)
    (hlast : (cp.chain.iterateTo fork cp.chain.head).getLast? = some cp.chain.head)
    (hfh : ¬ cp.chain.head.hash = fork.hash) :
    ∃ u, ChainProcessor.update signal cp = Except.ok u ∧
      u.cp.hash = some cp.chain.head.hash ∧
      u.cp.sequence = some cp.chain.head.sequence := by
  set ar : LoopOut :=
    (if (cp.chain.findFork current cp.chain.head).2 then
      (⟨(seedBoot cp).1, [], 0, false⟩ : LoopOut)
    else removeLoop fork signal (cp.chain.iterateFrom current fork)
      (seedBoot cp).1 0) with har
  have hab : ar.aborted = false := by
    rw [har]
    split
    · rfl
    · exact removeLoop_noabort_sigFalse fork signal hs _ _ _
  refine ⟨_, update_main_noabort_eq signal cp current fork ar hhead hget hfork
    har.symm hab, ?_, ?_⟩
  · exact (addLoop_last_sigFalse fork signal hs _ _ _ _ hlast hfh).1
  · exact (addLoop_last_sigFalse fork signal hs _ _ _ _ hlast hfh).2

/-- Witness for C2 at the depth-three reorganization: the cursor ends at
(B4.hash, B4.sequence), the head pinned at the start of the pass. -/
theorem c2_witness :
    ∃ u, ChainProcessor.update sigFalse cpA3 = Except.ok u ∧
      u.cp.hash = some cpA3.chain.head.hash ∧
      u.cp.sequence = some cpA3.chain.head.sequence :=
  c2_amended sigFalse cpA3 a3H gH (fun _ => rfl) (by decide) (by decide)
    (by decide) (by decide) (by decide)

lemma getHeader_mem {bc : Blockchain} {n : Nat} {p : Header}
    (h : bc.getHeader n = some p) : p ∈ bc.headers :=
  List.mem_of_find?_eq_some h

lemma getHeader_hash {bc : Blockchain} {n : Nat} {p : Header}
    (h : bc.getHeader n = some p) : p.hash = n := by
  have := List.find?_some h
  simpa using this

lemma getHeader_of_mem {bc : Blockchain} (hwf : WF bc) {x : Header}
    (hx : x ∈ bc.headers) : bc.getHeader x.hash = some x := by
  have h1 : (bc.getHeader x.hash).isSome :=
    List.find?_isSome.mpr ⟨x, hx, by simp⟩
  obtain ⟨p, hp⟩ := Option.isSome_iff_exists.mp h1
  have := hwf.inj p (getHeader_mem hp) x hx (getHeader_hash hp)
  rw [hp, this]

lemma pp_head {bc : Blockchain} {a b : Header} {l : List Header}
    (h : ParentPath bc a b l) : ∃ t, l = a :: t := by
  cases h with
  | refl => exact ⟨[], rfl⟩
  | step hne hget htail => exact ⟨_, rfl⟩

lemma pp_mem_headers {bc : Blockchain} {a b : Header} {l : List Header} :
    ParentPath bc a b l → a ∈ bc.headers → ∀ x ∈ l, x ∈ bc.headers := by
  intro h
  induction h with
  | refl a =>
    intro ha x hx
    rw [List.mem_singleton] at hx
    subst hx
    exact ha
  | step hne hget htail ih =>
    intro ha x hx
    rcases List.mem_cons.mp hx with rfl | hx'
    · exact ha
    · exact ih (getHeader_mem hget) x hx'

lemma pp_last_mem {bc : Blockchain} {a b : Header} {l : List Header}
    (h : ParentPath bc a b l) : b ∈ l := by
  induction h with
  | refl a => exact List.mem_singleton.mpr rfl
  | step hne hget htail ih => exact List.mem_cons_of_mem _ ih

lemma pp_seq_pairwise_aux {bc : Blockchain} (hwf : WF bc) {a b : Header} {l : List Header} :
    ParentPath bc a b l → b = bc.genesis → a ∈ bc.headers →
    l.Pairwise (fun x y => y.sequence < x.sequence) := by
  intro h
  induction h with
  | refl a => intro _ _; exact List.pairwise_singleton _ _
  | @step a p b l hne hget htail ih =>
    intro hb ha
    subst hb
    have hp := ih rfl (getHeader_mem hget)
    have hpa : p.sequence < a.sequence := by
      have h2 := hwf.pseq a ha hne
      rw [hget] at h2
      simp only [Option.map_some'] at h2
      injection h2 with h3
      omega
    refine List.pairwise_cons.mpr ⟨?_, hp⟩
    obtain ⟨t, rfl⟩ := pp_head htail
    intro y hy
    rcases List.mem_cons.mp hy with rfl | hy'
    · exact hpa
    · have := (List.pairwise_cons.mp hp).1 y hy'
      omega

lemma pp_seq_pairwise {bc : Blockchain} (hwf : WF bc) {a : Header} {l : List Header}
    (h : ParentPath bc a bc.genesis l) (ha : a ∈ bc.headers) :
    l.Pairwise (fun x y => y.sequence < x.sequence) :=
  pp_seq_pairwise_aux hwf h rfl ha

lemma pp_hash_nodup {bc : Blockchain} (hwf : WF bc) {a : Header} {l : List Header}
    (h : ParentPath bc a bc.genesis l) (ha : a ∈ bc.headers) :
    (l.map Header.hash).Nodup := by
  have hpw := pp_seq_pairwise hwf h ha
  have hne : l.Pairwise (fun x y => x.hash ≠ y.hash) := by
    refine List.Pairwise.imp_of_mem ?_ hpw
    intro x y hx hy hlt heq
    have : x = y := hwf.inj x (pp_mem_headers h ha x hx) y (pp_mem_headers h ha y hy) heq
    subst this
    omega
  exact List.Pairwise.map _ (fun a b hab => hab) hne

lemma pp_len_le {bc : Blockchain} (hwf : WF bc) {a : Header} {l : List Header}
    (h : ParentPath bc a bc.genesis l) (ha : a ∈ bc.headers) :
    l.length ≤ bc.headers.length := by
  have hnd : l.Nodup := (pp_hash_nodup hwf h ha).of_map _
  have hsub : l ⊆ bc.headers := fun x hx => pp_mem_headers h ha x hx
  have := (hnd.subperm hsub).length_le
  exact this

lemma pathExists {bc : Blockchain} (hwf : WF bc) :
    ∀ a ∈ bc.headers, ∃ l, ParentPath bc a bc.genesis l := by
  suffices H : ∀ (n : Nat) (a : Header), a ∈ bc.headers → a.sequence.toNat ≤ n →
      ∃ l, ParentPath bc a bc.genesis l by
    intro a ha
    exact H a.sequence.toNat a ha le_rfl
  intro n
  induction n with
  | zero =>
    intro a ha h0
    have := hwf.minSeq a ha
    omega
  | succ n ih =>
    intro a ha hn
    by_cases hg : a.hash = bc.genesis.hash
    · have hag : a = bc.genesis := hwf.inj a ha bc.genesis hwf.gmem hg
      exact ⟨[a], by rw [hag]; exact ParentPath.refl _⟩
    · have h2 := hwf.pseq a ha hg
      obtain ⟨p, hp, hps⟩ := Option.map_eq_some'.mp h2
      have hpm : p ∈ bc.headers := getHeader_mem hp
      have hp1 := hwf.minSeq p hpm
      have hton : p.sequence.toNat ≤ n := by omega
      obtain ⟨l, hl⟩ := ih p hpm hton
      exact ⟨a :: l, ParentPath.step hg hp hl⟩

lemma anc_eq_aux {bc : Blockchain} (hwf : WF bc) {a b : Header} {l : List Header} :
    ParentPath bc a b l → b = bc.genesis → ∀ fuel, l.length ≤ fuel →
    bc.ancestorList fuel a = l := by
  intro h
  induction h with
  | refl a =>
    intro hb fuel hf
    subst hb
    cases fuel with
    | zero => simp at hf
    | succ m => simp [Blockchain.ancestorList, hwf.gpar]
  | step hne hget htail ih =>
    intro hb fuel hf
    subst hb
    cases fuel with
    | zero => simp at hf
    | succ m =>
      have hm := ih rfl m (by simpa using hf)
      simp [Blockchain.ancestorList, hget, hm]

lemma anc_eq {bc : Blockchain} (hwf : WF bc) {a : Header} {l : List Header}
    (h : ParentPath bc a bc.genesis l) (ha : a ∈ bc.headers) :
    bc.ancestorList bc.fuel a = l :=
  anc_eq_aux hwf h rfl bc.fuel
    (le_trans (pp_len_le hwf h ha) (Nat.le_succ _))

lemma bw_eq {bc : Blockchain} {a s : Header} {l : List Header} :
    ParentPath bc a s l → ∀ fuel, l.length ≤ fuel →
    bc.backWalk fuel a s.hash = l := by
  intro h
  induction h with
  | refl a =>
    intro fuel hf
    cases fuel with
    | zero => simp at hf
    | succ m => simp [Blockchain.backWalk]
  | step hne hget htail ih =>
    intro fuel hf
    cases fuel with
    | zero => simp at hf
    | succ m =>
      have hm := ih m (by simpa using hf)
      simp [Blockchain.backWalk, if_neg hne, hget, hm]

lemma find?_decomp {α : Type} (p : α → Bool) :
    ∀ (l : List α) (x : α), l.find? p = some x →
    ∃ xs ys, l = xs ++ x :: ys ∧ ∀ y ∈ xs, p y = false := by
  intro l
  induction l with
  | nil => intro x h; cases h
  | cons a t ih =>
    intro x h
    cases hpa : p a with
    | true =>
      rw [List.find?_cons_of_pos _ hpa] at h
      injection h with h'
      subst h'
      exact ⟨[], t, rfl, by intro y hy; cases hy⟩
    | false =>
      rw [List.find?_cons_of_neg _ (by simp [hpa])] at h
      obtain ⟨xs, ys, rfl, hxs⟩ := ih x h
      refine ⟨a :: xs, ys, rfl, ?_⟩
      intro y hy
      rcases List.mem_cons.mp hy with rfl | hy'
      · exact hpa
      · exact hxs y hy'

lemma pp_inv {bc : Blockchain} {a c : Header} {l : List Header}
    (h : ParentPath bc a c l) :
    (a = c ∧ l = [a]) ∨
    ∃ p t, a.hash ≠ c.hash ∧ bc.getHeader a.previousBlockHash = some p ∧
      ParentPath bc p c t ∧ l = a :: t := by
  cases h with
  | refl => exact Or.inl ⟨rfl, rfl⟩
  | step hne hget htail => exact Or.inr ⟨_, _, hne, hget, htail, rfl⟩

lemma pp_split {bc : Blockchain} :
    ∀ (xs : List Header) {a c f : Header} {ys : List Header},
    ParentPath bc a c (xs ++ f :: ys) → (∀ x ∈ xs, x.hash ≠ f.hash) →
    ParentPath bc a f (xs ++ [f]) ∧ ParentPath bc f c (f :: ys) := by
  intro xs
  induction xs with
  | nil =>
    intro a c f ys h _
    obtain ⟨t, ht⟩ := pp_head h
    simp only [List.nil_append] at ht h ⊢
    injection ht with h1 h2
    subst h1
    exact ⟨ParentPath.refl _, h⟩
  | cons x xs' ih =>
    intro a c f ys h hxs
    rcases pp_inv h with ⟨rfl, hll⟩ | ⟨p, t, hne, hget, htail, hlt⟩
    · exfalso
      simp only [List.cons_append] at hll
      injection hll with h1 h2
      simp at h2
    · simp only [List.cons_append] at hlt
      injection hlt with h1 h2
      subst h1
      rw [← h2] at htail
      obtain ⟨g1, g2⟩ := ih htail (fun y hy => hxs y (List.mem_cons_of_mem _ hy))
      exact ⟨ParentPath.step (hxs _ (List.mem_cons_self _ _)) hget g1, g2⟩

lemma upchain_snoc {bc : Blockchain} {c : Header} :
    ∀ {ws : List Header} {a : Header}, UpChain bc c ws → a ∈ bc.headers →
    bc.getHeader a.previousBlockHash = some (ws.getLastD c) →
    UpChain bc c (ws ++ [a]) := by
  intro ws
  induction ws generalizing c with
  | nil =>
    intro a h ha hlink
    exact UpChain.cons ha (by simpa using hlink) (UpChain.nil a)
  | cons u l ih =>
    intro a h ha hlink
    cases h with
    | cons hu hl hrest =>
      refine UpChain.cons hu hl (ih hrest ha ?_)
      rw [List.getLastD_cons] at hlink
      exact hlink

lemma pp_to_upchain {bc : Blockchain} {b f : Header} {l : List Header} :
    ParentPath bc b f l → b ∈ bc.headers → ∀ ys, l = ys ++ [f] →
    UpChain bc f ys.reverse := by
  intro h
  induction h with
  | refl a =>
    intro ha ys hl
    cases ys with
    | nil => exact UpChain.nil _
    | cons z zs =>
      exfalso
      have := congrArg List.length hl
      simp at this
  | @step a p b' l' hne hget htail ih =>
    intro ha ys hl
    cases ys with
    | nil =>
      exfalso
      simp only [List.nil_append] at hl
      injection hl with h1 h2
      obtain ⟨t, ht⟩ := pp_head htail
      rw [ht] at h2
      cases h2
    | cons y ys' =>
      simp only [List.cons_append] at hl
      injection hl with h1 h2
      subst h1
      have hchain := ih (getHeader_mem hget) ys' h2
      have hlast : bc.getHeader a.previousBlockHash = some (ys'.reverse.getLastD b') := by
        obtain ⟨t, ht⟩ := pp_head htail
        cases ys' with
        | nil =>
          simp only [List.nil_append] at h2
          rw [h2] at ht
          injection ht with h3 h4
          simpa [← h3] using hget
        | cons z zs =>
          simp only [List.cons_append] at h2
          rw [h2] at ht
          injection ht with h3 h4
          have hgl : ((z :: zs).reverse.getLastD b') = z := by
            simp [List.getLastD_eq_getLast?, List.getLast?_reverse]
          rw [hgl, h3]
          exact hget
      have hfin := upchain_snoc hchain ha hlast
      have hrw : (a :: ys').reverse = ys'.reverse ++ [a] := by simp
      rw [hrw]
      exact hfin

lemma findFork_spec {bc : Blockchain} (hwf : WF bc) {a b : Header} {la lb : List Header}
    (ha : a ∈ bc.headers) (hb : b ∈ bc.headers)
    (hpa : ParentPath bc a bc.genesis la) (hpb : ParentPath bc b bc.genesis lb) :
    ∃ (fork : Header) (xs Q zs R : List Header),
      bc.findFork a b = (some fork, fork.hash == a.hash || fork.hash == b.hash) ∧
      la = xs ++ fork :: Q ∧ lb = zs ++ fork :: R := by
  have hca : bc.ancestorList bc.fuel a = la := anc_eq hwf hpa ha
  have hcb : bc.ancestorList bc.fuel b = lb := anc_eq hwf hpb hb
  have hGa : bc.genesis ∈ la := pp_last_mem hpa
  have hGb : bc.genesis ∈ lb := pp_last_mem hpb
  have hfind : ∃ f, la.find? (fun h => lb.any (fun g => g.hash == h.hash)) = some f := by
    have hsome : (la.find? (fun h => lb.any (fun g => g.hash == h.hash))).isSome := by
      refine List.find?_isSome.mpr ⟨bc.genesis, hGa, ?_⟩
      exact List.any_eq_true.mpr ⟨bc.genesis, hGb, by simp⟩
    exact Option.isSome_iff_exists.mp hsome
  obtain ⟨f, hf⟩ := hfind
  have hffeq : bc.findFork a b = (some f, f.hash == a.hash || f.hash == b.hash) := by
    simp only [Blockchain.findFork]
    rw [hca, hcb, hf]
  obtain ⟨xs, Q, hla, _⟩ := find?_decomp _ la f hf
  have hfmem_la : f ∈ la := by rw [hla]; simp
  have hfh : f ∈ bc.headers := pp_mem_headers hpa ha f hfmem_la
  have hpred := List.find?_some hf
  obtain ⟨g, hg, hgf⟩ := List.any_eq_true.mp hpred
  have hgeq : g = f :=
    hwf.inj g (pp_mem_headers hpb hb g hg) f hfh (by simpa using hgf)
  subst hgeq
  obtain ⟨zs, R, hlb⟩ := List.append_of_mem hg
  exact ⟨g, xs, Q, zs, R, hffeq, hla, hlb⟩

lemma evCount_append (a b : List TraceItem) (hh : Nat) :
    evCount (a ++ b) hh = evCount a hh + evCount b hh := by
  simp only [evCount, List.countP_append]
  push_cast
  ring

lemma evCount_check (b : Bool) (hh : Nat) : evCount [TraceItem.check b] hh = 0 := rfl

lemma evCount_add_item (h : Header) (hh : Nat) :
    evCount [TraceItem.add h] hh = if h.hash = hh then 1 else 0 := by
  by_cases he : h.hash = hh <;>
    simp [evCount, List.countP_cons, List.countP_nil, isAddOf, isRemOf, he]

lemma evCount_remove_item (h : Header) (hh : Nat) :
    evCount [TraceItem.remove h] hh = if h.hash = hh then -1 else 0 := by
  by_cases he : h.hash = hh <;>
    simp [evCount, List.countP_cons, List.countP_nil, isAddOf, isRemOf, he]

lemma evCount_nil (hh : Nat) : evCount [] hh = 0 := rfl

lemma balanced_snoc {evs : List TraceItem} (e : TraceItem) (hb : BalancedAt evs)
    (hfull : ∀ hh, 0 ≤ evCount (evs ++ [e]) hh ∧ evCount (evs ++ [e]) hh ≤ 1) :
    BalancedAt (evs ++ [e]) := by
  intro n hh
  rw [List.take_append_eq_append_take]
  by_cases hn : n ≤ evs.length
  · rw [Nat.sub_eq_zero_of_le hn]
    simp only [List.take_zero, List.append_nil]
    exact hb n hh
  · have h1 : evs.take n = evs := List.take_of_length_le (by omega)
    have h2 : ([e] : List TraceItem).take (n - evs.length) = [e] :=
      List.take_of_length_le (by simp; omega)
    rw [h1, h2]
    exact hfull hh

lemma balanced_nil : BalancedAt [] := by
  intro n hh
  simp [BalancedAt, List.take_nil, evCount_nil]

lemma removeLoop_cons_eq (fork : Header) (signal : Nat → Bool) (h : Header)
    (rest : List Header) (cp : ChainProcessor) (k : Nat) :
    removeLoop fork signal (h :: rest) cp k =
      if signal k then ⟨cp, [TraceItem.check true], k + 1, true⟩
      else if h.hash = fork.hash then
        ⟨(removeLoop fork signal rest cp (k + 1)).cp,
         TraceItem.check false :: (removeLoop fork signal rest cp (k + 1)).trace,
         (removeLoop fork signal rest cp (k + 1)).checks,
         (removeLoop fork signal rest cp (k + 1)).aborted⟩
      else
        ⟨(removeLoop fork signal rest { cp with hash := some h.previousBlockHash, sequence := some (h.sequence - 1) } (k + 1)).cp,
         TraceItem.check false :: TraceItem.remove h ::
           (removeLoop fork signal rest { cp with hash := some h.previousBlockHash, sequence := some (h.sequence - 1) } (k + 1)).trace,
         (removeLoop fork signal rest { cp with hash := some h.previousBlockHash, sequence := some (h.sequence - 1) } (k + 1)).checks,
         (removeLoop fork signal rest { cp with hash := some h.previousBlockHash, sequence := some (h.sequence - 1) } (k + 1)).aborted⟩ := rfl

lemma inv_of_parts {bc : Blockchain} (cp : ChainProcessor) (evs : List TraceItem)
    (P : List Header) (c : Header)
    (hcc : cp.chain = bc) (hch : cp.hash = some c.hash) (hcm : c ∈ bc.headers)
    (hpp : ParentPath bc c bc.genesis P)
    (hnd : (P.map Header.hash).Nodup)
    (hcnt : ∀ hh, evCount evs hh = if hh ∈ P.map Header.hash then 1 else 0) :
    Inv cp evs := by
  refine ⟨P, ?_, hnd, hcnt⟩
  simp only [CursorPath, hch]
  exact ⟨c, by rw [hcc]; exact hcm, rfl, by rw [hcc]; exact hpp⟩

lemma counts_snoc_check {evs : List TraceItem} {F : Nat → Int} (b : Bool)
    (hcnt : ∀ hh, evCount evs hh = F hh) :
    ∀ hh, evCount (evs ++ [TraceItem.check b]) hh = F hh := by
  intro hh
  rw [evCount_append, evCount_check, add_zero]
  exact hcnt hh

lemma indicator_bounds (P : List Nat) (hh : Nat) :
    0 ≤ (if hh ∈ P then (1 : Int) else 0) ∧ (if hh ∈ P then (1 : Int) else 0) ≤ 1 := by
  split <;> omega

lemma balanced_snoc_check {evs : List TraceItem} (b : Bool) (hb : BalancedAt evs)
    {P : List Nat} (hcnt : ∀ hh, evCount evs hh = if hh ∈ P then 1 else 0) :
    BalancedAt (evs ++ [TraceItem.check b]) := by
  refine balanced_snoc _ hb ?_
  intro hh
  rw [counts_snoc_check b hcnt hh]
  exact indicator_bounds P hh

lemma append_two (evs : List TraceItem) (a b : TraceItem) (t : List TraceItem) :
    (evs ++ [a, b]) ++ t = evs ++ (a :: b :: t) := by simp

lemma balanced_two {evs : List TraceItem} (a b : TraceItem) (hb : BalancedAt evs)
    (hmid : ∀ hh, 0 ≤ evCount (evs ++ [a]) hh ∧ evCount (evs ++ [a]) hh ≤ 1)
    (hfull : ∀ hh, 0 ≤ evCount (evs ++ [a, b]) hh ∧ evCount (evs ++ [a, b]) hh ≤ 1) :
    BalancedAt (evs ++ [a, b]) := by
  have e : (evs ++ [a]) ++ [b] = evs ++ [a, b] := by simp
  rw [← e]
  refine balanced_snoc _ (balanced_snoc _ hb hmid) ?_
  intro hh
  rw [e]
  exact hfull hh

lemma removeLoop_inv {bc : Blockchain} (hwf : WF bc) (fork : Header) (signal : Nat → Bool) :
    ∀ (xs Q : List Header) (cp : ChainProcessor) (k : Nat) (evs : List TraceItem)
      (c : Header),
      cp.chain = bc →
      cp.hash = some c.hash →
      c ∈ bc.headers →
      ParentPath bc c bc.genesis (xs ++ fork :: Q) →
      ((xs ++ fork :: Q).map Header.hash).Nodup →
      (∀ hh, evCount evs hh = if hh ∈ (xs ++ fork :: Q).map Header.hash then 1 else 0) →
      BalancedAt evs →
      RemOutOK bc fork Q evs (removeLoop fork signal (xs ++ [fork]) cp k) := by
  intro xs
  induction xs with
  | nil =>
    intro Q cp k evs c hcc hch hcm hpp hnd hcnt hbal
    simp only [List.nil_append] at hpp hnd hcnt ⊢
    obtain ⟨t, ht⟩ := pp_head hpp
    injection ht with h1 h2
    subst h1
    rw [removeLoop_cons_eq]
    cases hs : signal k with
    | true =>
      rw [if_pos rfl]
      refine ⟨hcc, ?_, ?_, ?_⟩
      · exact balanced_snoc_check true hbal hcnt
      · exact inv_of_parts _ _ _ fork hcc hch hcm hpp hnd (counts_snoc_check true hcnt)
      · intro hab; cases hab
    | false =>
      rw [if_neg (by simp), if_pos rfl]
      refine ⟨hcc, ?_, ?_, ?_⟩
      · exact balanced_snoc_check false hbal hcnt
      · exact inv_of_parts _ _ _ fork hcc hch hcm hpp hnd (counts_snoc_check false hcnt)
      · intro _
        exact ⟨hch, counts_snoc_check false hcnt⟩
  | cons x xs' ih =>
    intro Q cp k evs c hcc hch hcm hpp hnd hcnt hbal
    simp only [List.cons_append] at hpp hnd hcnt ⊢
    obtain ⟨t0, ht0⟩ := pp_head hpp
    injection ht0 with h1 h2
    subst h1
    have hnd2 := hnd
    rw [List.map_cons, List.nodup_cons] at hnd2
    have hx_ne : ¬ x.hash = fork.hash := by
      intro hcontra
      apply hnd2.1
      rw [hcontra]
      simp
    rcases pp_inv hpp with ⟨heq, hll⟩ | ⟨p, t, hne, hget, htail, hlt⟩
    · exfalso
      injection hll with _ h3
      simp at h3
    · injection hlt with _ h3
      subst h3
      have hph : p.hash = x.previousBlockHash := getHeader_hash hget
      have hpm : p ∈ bc.headers := getHeader_mem hget
      rw [removeLoop_cons_eq]
      cases hs : signal k with
      | true =>
        rw [if_pos rfl]
        refine ⟨hcc, ?_, ?_, ?_⟩
        · exact balanced_snoc_check true hbal hcnt
        · exact inv_of_parts _ _ _ x hcc hch hcm hpp hnd (counts_snoc_check true hcnt)
        · intro hab; cases hab
      | false =>
        rw [if_neg (by simp), if_neg hx_ne]
        have hcnt' : ∀ hh,
            evCount (evs ++ [TraceItem.check false, TraceItem.remove x]) hh =
            if hh ∈ (xs' ++ fork :: Q).map Header.hash then 1 else 0 := by
          intro hh
          have e1 : evs ++ [TraceItem.check false, TraceItem.remove x] =
              (evs ++ [TraceItem.check false]) ++ [TraceItem.remove x] := by simp
          rw [e1, evCount_append, counts_snoc_check false hcnt hh, evCount_remove_item]
          by_cases hxh : x.hash = hh
          · subst hxh
            rw [if_pos (by simp), if_pos rfl, if_neg hnd2.1]
            norm_num
          · rw [if_neg hxh]
            by_cases hmem : hh ∈ (xs' ++ fork :: Q).map Header.hash
            · rw [if_pos (by simp only [List.map_cons, List.mem_cons]; exact Or.inr hmem),
                if_pos hmem]
              norm_num
            · rw [if_neg (by
                  simp only [List.map_cons, List.mem_cons]
                  push_neg
                  exact ⟨fun h => hxh h.symm, hmem⟩),
                if_neg hmem]
              norm_num
        have hbal' : BalancedAt (evs ++ [TraceItem.check false, TraceItem.remove x]) := by
          refine balanced_two _ _ hbal ?_ ?_
          · intro hh
            rw [counts_snoc_check false hcnt hh]
            exact indicator_bounds _ hh
          · intro hh
            rw [hcnt' hh]
            exact indicator_bounds _ hh
        have hres := ih Q
          { cp with hash := some x.previousBlockHash, sequence := some (x.sequence - 1) }
          (k + 1) (evs ++ [TraceItem.check false, TraceItem.remove x]) p hcc
          (by simp [hph]) hpm htail hnd2.2 hcnt' hbal'
        obtain ⟨g1, g2, g3, g4⟩ := hres
        rw [append_two] at g2 g3 g4
        exact ⟨g1, g2, g3, g4⟩

lemma addLoop_inv {bc : Blockchain} (hwf : WF bc) (fork : Header) (signal : Nat → Bool) :
    ∀ (zs : List Header) (cp : ChainProcessor) (k : Nat) (evs : List TraceItem)
      (c : Header) (Q : List Header),
      cp.chain = bc →
      cp.hash = some c.hash →
      c ∈ bc.headers →
      ParentPath bc c bc.genesis (c :: Q) →
      ((c :: Q).map Header.hash).Nodup →
      (∀ hh, evCount evs hh = if hh ∈ (c :: Q).map Header.hash then 1 else 0) →
      BalancedAt evs →
      UpChain bc c zs →
      (∀ u ∈ zs, u.hash ≠ fork.hash) →
      AddOutOK bc evs (addLoop fork signal zs cp k) := by
  intro zs
  induction zs with
  | nil =>
    intro cp k evs c Q hcc hch hcm hpp hnd hcnt hbal huc hzs
    refine ⟨hcc, ?_, ?_⟩
    · show BalancedAt (evs ++ [])
      rw [List.append_nil]
      exact hbal
    · show Inv cp (evs ++ [])
      rw [List.append_nil]
      exact inv_of_parts _ _ _ c hcc hch hcm hpp hnd hcnt
  | cons u zs' ih =>
    intro cp k evs c Q hcc hch hcm hpp hnd hcnt hbal huc hzs
    cases huc with
    | cons hum hulink hurest =>
      rw [addLoop_cons_eq]
      cases hs : signal k with
      | true =>
        rw [if_pos rfl]
        refine ⟨hcc, ?_, ?_⟩
        · exact balanced_snoc_check true hbal hcnt
        · exact inv_of_parts _ _ _ c hcc hch hcm hpp hnd (counts_snoc_check true hcnt)
      | false =>
        rw [if_neg (by simp), if_neg (hzs u (List.mem_cons_self _ _))]
        have hug : u.hash ≠ bc.genesis.hash := by
          intro hcontra
          have hγ : u = bc.genesis := hwf.inj u hum bc.genesis hwf.gmem hcontra
          rw [hγ, hwf.gpar] at hulink
          cases hulink
        have hpp' : ParentPath bc u bc.genesis (u :: c :: Q) :=
          ParentPath.step hug hulink hpp
        have hnd' : ((u :: c :: Q).map Header.hash).Nodup := pp_hash_nodup hwf hpp' hum
        have hufresh : u.hash ∉ (c :: Q).map Header.hash := by
          have h4 := hnd'
          rw [List.map_cons, List.nodup_cons] at h4
          exact h4.1
        have hcnt' : ∀ hh,
            evCount (evs ++ [TraceItem.check false, TraceItem.add u]) hh =
            if hh ∈ (u :: c :: Q).map Header.hash then 1 else 0 := by
          intro hh
          have e1 : evs ++ [TraceItem.check false, TraceItem.add u] =
              (evs ++ [TraceItem.check false]) ++ [TraceItem.add u] := by simp
          rw [e1, evCount_append, counts_snoc_check false hcnt hh, evCount_add_item]
          by_cases hxh : u.hash = hh
          · subst hxh
            rw [if_neg hufresh, if_pos rfl, if_pos (by simp)]
            norm_num
          · rw [if_neg hxh]
            by_cases hmem : hh ∈ (c :: Q).map Header.hash
            · rw [if_pos hmem,
                if_pos (by simp only [List.map_cons, List.mem_cons]; exact Or.inr (by simpa using hmem))]
              norm_num
            · rw [if_neg hmem,
                if_neg (by
                  simp only [List.map_cons, List.mem_cons]
                  push_neg
                  refine ⟨fun h => hxh h.symm, ?_⟩
                  simpa using hmem)]
              norm_num
        have hbal' : BalancedAt (evs ++ [TraceItem.check false, TraceItem.add u]) := by
          refine balanced_two _ _ hbal ?_ ?_
          · intro hh
            rw [counts_snoc_check false hcnt hh]
            exact indicator_bounds _ hh
          · intro hh
            rw [hcnt' hh]
            exact indicator_bounds _ hh
        have hres := ih { cp with hash := some u.hash, sequence := some u.sequence }
          (k + 1) (evs ++ [TraceItem.check false, TraceItem.add u]) u (c :: Q) hcc rfl
          hum hpp' hnd' hcnt' hbal' hurest (fun v hv => hzs v (List.mem_cons_of_mem _ hv))
        obtain ⟨g1, g2, g3⟩ := hres
        rw [append_two] at g2 g3
        exact ⟨g1, g2, g3⟩

lemma seedBoot_chain (cp : ChainProcessor) : (seedBoot cp).1.chain = cp.chain := by
  cases hc : cp.hash <;> simp [seedBoot, hc]

lemma addLoop_fork_inv {bc : Blockchain} (hwf : WF bc) (fork : Header)
    (signal : Nat → Bool) (ws : List Header) (cp : ChainProcessor) (k : Nat)
    (evs : List TraceItem) (Q : List Header)
    (hcc : cp.chain = bc) (hch : cp.hash = some fork.hash) (hfm : fork ∈ bc.headers)
    (hpp : ParentPath bc fork bc.genesis (fork :: Q))
    (hnd : ((fork :: Q).map Header.hash).Nodup)
    (hcnt : ∀ hh, evCount evs hh = if hh ∈ (fork :: Q).map Header.hash then 1 else 0)
    (hbal : BalancedAt evs)
    (huc : UpChain bc fork ws)
    (hws : ∀ u ∈ ws, u.hash ≠ fork.hash) :
    AddOutOK bc evs (addLoop fork signal (fork :: ws) cp k) := by
  rw [addLoop_cons_eq]
  cases hs : signal k with
  | true =>
    rw [if_pos rfl]
    exact ⟨hcc, balanced_snoc_check true hbal hcnt,
      inv_of_parts _ _ _ fork hcc hch hfm hpp hnd (counts_snoc_check true hcnt)⟩
  | false =>
    rw [if_neg (by simp), if_pos rfl]
    have hres := addLoop_inv hwf fork signal ws cp (k + 1)
      (evs ++ [TraceItem.check false]) fork Q hcc hch hfm hpp hnd
      (counts_snoc_check false hcnt) (balanced_snoc_check false hbal hcnt) huc hws
    obtain ⟨g1, g2, g3⟩ := hres
    have e : ∀ t : List TraceItem,
        (evs ++ [TraceItem.check false]) ++ t = evs ++ (TraceItem.check false :: t) := by
      intro t; simp
    rw [e] at g2 g3
    exact ⟨g1, g2, g3⟩

lemma addLoop_skip_only (fork : Header) (signal : Nat → Bool)
    (cp : ChainProcessor) (k : Nat) :
    (addLoop fork signal [fork] cp k).cp = cp ∧
    ∃ b, (addLoop fork signal [fork] cp k).trace = [TraceItem.check b] := by
  rw [addLoop_cons_eq]
  cases hs : signal k with
  | true => rw [if_pos rfl]; exact ⟨rfl, true, rfl⟩
  | false => rw [if_neg (by simp), if_pos rfl]; exact ⟨rfl, false, rfl⟩

lemma stepOK_ok (evs : List TraceItem) (a : ChainProcessor) (t : List TraceItem)
    (l : List String) (b : Bool)
    (h1 : Inv a (evs ++ t)) (h2 : BalancedAt (evs ++ t)) :
    StepOK evs (updState (Except.ok ⟨a, t, l, b⟩)) := ⟨h1, h2⟩

lemma update_inv (signal : Nat → Bool) (cp : ChainProcessor) (evs : List TraceItem)
    (hwf : WF cp.chain) (hinv : Inv cp evs) (hbal : BalancedAt evs) :
    StepOK evs (updState (ChainProcessor.update signal cp)) := by
  obtain ⟨P, hcp, hnd0, hcnt0⟩ := hinv
  have hseed : ∃ (c1 : Header) (P1 : List Header),
      (seedBoot cp).1.hash = some c1.hash ∧
      c1 ∈ cp.chain.headers ∧
      ParentPath cp.chain c1 cp.chain.genesis P1 ∧
      (P1.map Header.hash).Nodup ∧
      (∀ hh, evCount (evs ++ (seedBoot cp).2) hh =
        if hh ∈ P1.map Header.hash then 1 else 0) ∧
      BalancedAt (evs ++ (seedBoot cp).2) ∧
      cp.hash.getD cp.chain.genesis.hash = c1.hash := by
    cases hc : cp.hash with
    | none =>
      simp only [CursorPath, hc] at hcp
      subst hcp
      have htr0 : (seedBoot cp).2 = [TraceItem.add cp.chain.genesis] := by
        simp [seedBoot, hc]
      have hcntG : ∀ hh, evCount (evs ++ (seedBoot cp).2) hh =
          if hh ∈ ([cp.chain.genesis].map Header.hash) then 1 else 0 := by
        intro hh
        rw [htr0, evCount_append, evCount_add_item, hcnt0 hh]
        by_cases he : hh = cp.chain.genesis.hash
        · simp [he]
        · simp [he, Ne.symm he]
      refine ⟨cp.chain.genesis, [cp.chain.genesis], by simp [seedBoot, hc], hwf.gmem,
        ParentPath.refl _, by simp, hcntG, ?_, by simp [hc]⟩
      rw [htr0]
      refine balanced_snoc _ hbal ?_
      intro hh
      have h9 := hcntG hh
      rw [htr0] at h9
      rw [h9]
      exact indicator_bounds _ hh
    | some hh0 =>
      simp only [CursorPath, hc] at hcp
      obtain ⟨c, hcm, hce, hppc⟩ := hcp
      have htr0 : (seedBoot cp).2 = [] := by simp [seedBoot, hc]
      refine ⟨c, P, by simp [seedBoot, hc, hce], hcm, hppc, hnd0, ?_, ?_, by simp [hc, hce]⟩
      · intro hh
        rw [htr0, List.append_nil]
        exact hcnt0 hh
      · rw [htr0, List.append_nil]
        exact hbal
  obtain ⟨c1, P1, hch1, hcm, hpp, hnd, hcnt1, hbal1, hgetD⟩ := hseed
  by_cases hhead : cp.chain.head.hash = cp.hash.getD cp.chain.genesis.hash
  · rw [update_head_eq signal cp hhead]
    exact ⟨inv_of_parts _ _ P1 c1 (seedBoot_chain cp) hch1 hcm hpp hnd hcnt1, hbal1⟩
  · cases hget : cp.chain.getHeader (cp.hash.getD cp.chain.genesis.hash) with
    | none =>
      exfalso
      rw [hgetD, getHeader_of_mem hwf hcm] at hget
      cases hget
    | some current =>
      have h5 : cp.chain.getHeader (cp.hash.getD cp.chain.genesis.hash) = some c1 := by
        rw [hgetD]
        exact getHeader_of_mem hwf hcm
      have hcur : current = c1 := by
        rw [hget] at h5
        injection h5 with h6
      subst hcur
      obtain ⟨lb, hpb⟩ := pathExists hwf cp.chain.head hwf.hmem
      obtain ⟨fork, xs, Q, zs, R, hffeq, hla, hlb⟩ :=
        findFork_spec hwf hcm hwf.hmem hpp hpb
      have hfork1 : (cp.chain.findFork current cp.chain.head).1 = some fork := by
        rw [hffeq]
      have hndA := hnd
      rw [hla, List.map_append] at hndA
      have hndb := pp_hash_nodup hwf hpb hwf.hmem
      have hndB := hndb
      rw [hlb, List.map_append] at hndB
      have hxs_ne : ∀ y ∈ xs, y.hash ≠ fork.hash := by
        intro y hy hcontra
        have hdisj := List.disjoint_of_nodup_append hndA
        exact hdisj (List.mem_map_of_mem Header.hash hy)
          (by rw [hcontra]; simp)
      have hzs_ne : ∀ y ∈ zs, y.hash ≠ fork.hash := by
        intro y hy hcontra
        have hdisj := List.disjoint_of_nodup_append hndB
        exact hdisj (List.mem_map_of_mem Header.hash hy)
          (by rw [hcontra]; simp)
      have hppS : ParentPath cp.chain current cp.chain.genesis (xs ++ fork :: Q) := by
        rw [← hla]
        exact hpp
      obtain ⟨ppA, ppB⟩ := pp_split xs hppS hxs_ne
      have hppT : ParentPath cp.chain cp.chain.head cp.chain.genesis (zs ++ fork :: R) := by
        rw [← hlb]
        exact hpb
      obtain ⟨ppC, ppD⟩ := pp_split zs hppT hzs_ne
      have hforkmem : fork ∈ cp.chain.headers :=
        pp_mem_headers hpp hcm fork (by rw [hla]; simp)
      have hndQ : ((fork :: Q).map Header.hash).Nodup := hndA.of_append_right
      have hcntS : ∀ hh, evCount (evs ++ (seedBoot cp).2) hh =
          if hh ∈ (xs ++ fork :: Q).map Header.hash then 1 else 0 := by
        intro hh
        rw [← hla]
        exact hcnt1 hh
      have hitFrom : cp.chain.iterateFrom current fork = xs ++ [fork] := by
        have hlen := pp_len_le hwf hpp hcm
        rw [hla] at hlen
        refine bw_eq ppA cp.chain.fuel ?_
        simp only [Blockchain.fuel, List.length_append, List.length_cons] at hlen ⊢
        simp at hlen ⊢
        omega
      have hitTo : cp.chain.iterateTo fork cp.chain.head = fork :: zs.reverse := by
        have hlen := pp_len_le hwf hpb hwf.hmem
        rw [hlb] at hlen
        unfold Blockchain.iterateTo
        rw [bw_eq ppC cp.chain.fuel (by
          simp only [Blockchain.fuel, List.length_append, List.length_cons] at hlen ⊢
          simp at hlen ⊢
          omega)]
        simp
      have hup : UpChain cp.chain fork zs.reverse := pp_to_upchain ppC hwf.hmem zs rfl
      have hzs_ne' : ∀ u ∈ zs.reverse, u.hash ≠ fork.hash := by
        intro u hu
        exact hzs_ne u (List.mem_reverse.mp hu)
      by_cases hfc : fork.hash = current.hash
      · have hforkcur : fork = current := hwf.inj fork hforkmem current hcm hfc
        have hxs_nil : xs = [] := by
          cases hxs0 : xs with
          | nil => rfl
          | cons x xs'' =>
            exfalso
            obtain ⟨t1, ht1⟩ := pp_head hppS
            rw [hxs0] at ht1
            simp only [List.cons_append] at ht1
            injection ht1 with hx1 _
            have h8 := hxs_ne x (by rw [hxs0]; exact List.mem_cons_self _ _)
            apply h8
            rw [hx1, ← hforkcur]
        have hlin : (cp.chain.findFork current cp.chain.head).2 = true := by
          rw [hffeq]
          simp [hfc]
        set ar : LoopOut := (if (cp.chain.findFork current cp.chain.head).2 then
            (⟨(seedBoot cp).1, [], 0, false⟩ : LoopOut)
          else removeLoop fork signal (cp.chain.iterateFrom current fork)
            (seedBoot cp).1 0) with har
        have harval : ar = ⟨(seedBoot cp).1, [], 0, false⟩ := by
          rw [har, if_pos hlin]
        have habort : ar.aborted = false := by rw [harval]
        rw [update_main_noabort_eq signal cp current fork ar hhead hget hfork1
          har.symm habort]
        have harcp : ar.cp = (seedBoot cp).1 := by rw [harval]
        have hartr : ar.trace = [] := by rw [harval]
        have harck : ar.checks = 0 := by rw [harval]
        rw [harcp, hartr, harck, hitTo]
        have hcntF : ∀ hh, evCount (evs ++ (seedBoot cp).2) hh =
            if hh ∈ (fork :: Q).map Header.hash then 1 else 0 := by
          intro hh
          rw [hcnt1 hh, hla, hxs_nil]
          simp
        have hchF : (seedBoot cp).1.hash = some fork.hash := by
          rw [hch1, hforkcur]
        have haddOK := addLoop_fork_inv hwf fork signal zs.reverse (seedBoot cp).1 0
          (evs ++ (seedBoot cp).2) Q (seedBoot_chain cp) hchF hforkmem ppB hndQ
          hcntF hbal1 hup hzs_ne'
        obtain ⟨gg1, gg2, gg3⟩ := haddOK
        have e4 : evs ++ ((seedBoot cp).2 ++ [] ++
            (addLoop fork signal (fork :: zs.reverse) (seedBoot cp).1 0).trace) =
            (evs ++ (seedBoot cp).2) ++
            (addLoop fork signal (fork :: zs.reverse) (seedBoot cp).1 0).trace := by
          simp
        refine stepOK_ok _ _ _ _ _ ?_ ?_
        · rw [e4]; exact gg3
        · rw [e4]; exact gg2
      · by_cases hfh : fork.hash = cp.chain.head.hash
        · have hforkhead : fork = cp.chain.head :=
            hwf.inj fork hforkmem cp.chain.head hwf.hmem hfh
          have hzs_nil : zs = [] := by
            cases hzs0 : zs with
            | nil => rfl
            | cons z zs'' =>
              exfalso
              obtain ⟨t1, ht1⟩ := pp_head hppT
              rw [hzs0] at ht1
              simp only [List.cons_append] at ht1
              injection ht1 with hz1 _
              have h8 := hzs_ne z (by rw [hzs0]; exact List.mem_cons_self _ _)
              apply h8
              rw [hz1, hforkhead]
          have hlin : (cp.chain.findFork current cp.chain.head).2 = true := by
            rw [hffeq]
            simp [hfh]
          set ar : LoopOut := (if (cp.chain.findFork current cp.chain.head).2 then
              (⟨(seedBoot cp).1, [], 0, false⟩ : LoopOut)
            else removeLoop fork signal (cp.chain.iterateFrom current fork)
              (seedBoot cp).1 0) with har
          have harval : ar = ⟨(seedBoot cp).1, [], 0, false⟩ := by
            rw [har, if_pos hlin]
          have habort : ar.aborted = false := by rw [harval]
          rw [update_main_noabort_eq signal cp current fork ar hhead hget hfork1
            har.symm habort]
          have harcp : ar.cp = (seedBoot cp).1 := by rw [harval]
          have hartr : ar.trace = [] := by rw [harval]
          have harck : ar.checks = 0 := by rw [harval]
          rw [harcp, hartr, harck, hitTo, hzs_nil]
          obtain ⟨hcpEq, b, htrEq⟩ := addLoop_skip_only fork signal (seedBoot cp).1 0
          rw [show (fork :: List.reverse ([] : List Header)) = [fork] from rfl] at *
          rw [hcpEq, htrEq]
          have e5 : evs ++ ((seedBoot cp).2 ++ [] ++ [TraceItem.check b]) =
              (evs ++ (seedBoot cp).2) ++ [TraceItem.check b] := by simp
          refine stepOK_ok _ _ _ _ _ ?_ ?_
          · rw [e5]
            exact inv_of_parts _ _ P1 current (seedBoot_chain cp) hch1 hcm hpp hnd
              (counts_snoc_check b hcnt1)
          · rw [e5]
            exact balanced_snoc_check b hbal1 hcnt1
        · have hlinF : (cp.chain.findFork current cp.chain.head).2 = false := by
            rw [hffeq]
            simp [hfc, hfh]
          set ar : LoopOut := (if (cp.chain.findFork current cp.chain.head).2 then
              (⟨(seedBoot cp).1, [], 0, false⟩ : LoopOut)
            else removeLoop fork signal (cp.chain.iterateFrom current fork)
              (seedBoot cp).1 0) with har
          have harval : ar = removeLoop fork signal (xs ++ [fork]) (seedBoot cp).1 0 := by
            rw [har, if_neg (by rw [hlinF]; simp), hitFrom]
          have hndS := hnd
          rw [hla] at hndS
          have hremOK := removeLoop_inv hwf fork signal xs Q (seedBoot cp).1 0
            (evs ++ (seedBoot cp).2) current (seedBoot_chain cp) hch1 hcm hppS hndS
            hcntS hbal1
          rw [← harval] at hremOK
          obtain ⟨g1, g2, g3, g4⟩ := hremOK
          cases habort : ar.aborted with
          | true =>
            rw [update_main_abort_eq signal cp current fork ar hhead hget hfork1
              har.symm habort]
            have e6 : evs ++ ((seedBoot cp).2 ++ ar.trace) =
                (evs ++ (seedBoot cp).2) ++ ar.trace := by simp
            refine stepOK_ok _ _ _ _ _ ?_ ?_
            · rw [e6]; exact g3
            · rw [e6]; exact g2
          | false =>
            obtain ⟨harh, hcntQ2⟩ := g4 habort
            rw [update_main_noabort_eq signal cp current fork ar hhead hget hfork1
              har.symm habort]
            rw [hitTo]
            have haddOK := addLoop_fork_inv hwf fork signal zs.reverse ar.cp ar.checks
              ((evs ++ (seedBoot cp).2) ++ ar.trace) Q g1 harh hforkmem ppB hndQ
              hcntQ2 g2 hup hzs_ne'
            obtain ⟨gg1, gg2, gg3⟩ := haddOK
            have e7 : evs ++ ((seedBoot cp).2 ++ ar.trace ++
                (addLoop fork signal (fork :: zs.reverse) ar.cp ar.checks).trace) =
                ((evs ++ (seedBoot cp).2) ++ ar.trace) ++
                (addLoop fork signal (fork :: zs.reverse) ar.cp ar.checks).trace := by
              simp
            refine stepOK_ok _ _ _ _ _ ?_ ?_
            · rw [e7]; exact gg3
            · rw [e7]; exact gg2

lemma update_chain_eq (signal : Nat → Bool) (cp : ChainProcessor) :
    (updState (ChainProcessor.update signal cp)).1.chain = cp.chain := by
  rcases update_shape signal cp with h | ⟨x, y, h⟩ <;> rw [h]

lemma getHeader_append (bc : Blockchain) (ext : List Header) (newHead : Header)
    {n : Nat} {p : Header} (h : bc.getHeader n = some p) :
    (Blockchain.mk bc.genesis newHead (bc.headers ++ ext)).getHeader n = some p := by
  unfold Blockchain.getHeader at h ⊢
  rw [List.find?_append, h]
  rfl

lemma pp_extend {bc : Blockchain} (ext : List Header) (newHead : Header)
    {a b : Header} {l : List Header} (h : ParentPath bc a b l) :
    ParentPath (Blockchain.mk bc.genesis newHead (bc.headers ++ ext)) a b l := by
  induction h with
  | refl a => exact ParentPath.refl a
  | step hne hget htail ih =>
    exact ParentPath.step hne (getHeader_append bc ext newHead hget) ih

lemma reachable_inv {cp : ChainProcessor} {evs : List TraceItem}
    (h : Reachable cp evs) : WF cp.chain ∧ Inv cp evs ∧ BalancedAt evs := by
  induction h with
  | init lg bc hwf =>
    refine ⟨hwf, ⟨[], ?_, by simp, ?_⟩, balanced_nil⟩
    · simp [CursorPath, ChainProcessor.create]
    · intro hh
      simp [evCount_nil]
  | advance signal hr ih =>
    obtain ⟨hwf1, hinv1, hbal1⟩ := ih
    have h2 := update_inv signal _ _ hwf1 hinv1 hbal1
    refine ⟨?_, h2.1, h2.2⟩
    rw [update_chain_eq]
    exact hwf1
  | @mutate cp' evs' ext newHead hwf2 hr ih =>
    obtain ⟨hwf1, hinv1, hbal1⟩ := ih
    refine ⟨hwf2, ?_, hbal1⟩
    obtain ⟨P, hcp, hnd, hcnt⟩ := hinv1
    refine ⟨P, ?_, hnd, hcnt⟩
    cases hc : cp'.hash with
    | none =>
      simp only [CursorPath, hc] at hcp ⊢
      exact hcp
    | some hh0 =>
      simp only [CursorPath, hc] at hcp ⊢
      obtain ⟨c, hm, he, hp⟩ := hcp
      exact ⟨c, List.mem_append_left _ hm, he, pp_extend ext newHead hp⟩

/-- C3 (amended): for any interleaving of well-formed store mutations and
`update` passes (with arbitrary cancellation) by a processor whose cursor
was NOT seeded through the constructor — it starts unseeded — the running
balance of every header hash (emitted Adds minus emitted Removes) is zero
or one at every point of the cumulative event stream, never negative.  (A
constructor-seeded cursor violates this: see the counterexample.) -/
theorem c3_amended (cp : ChainProcessor) (evs : List TraceItem)
    (h : Reachable cp evs) :
    ∀ n hh, 0 ≤ evCount (evs.take n) hh ∧ evCount (evs.take n) hh ≤ 1 :=
  (reachable_inv h).2.2

/-- A concrete well-formed store for the C3 witness. -/
lemma wfSingle : WF singleChain :=
  ⟨by decide, by decide, by decide, by decide, by decide, by decide, by decide⟩

/-- Witness for C3: one `update` pass from the unseeded initial state on
the genesis-only store keeps the stream balanced at prefix one for the
genesis hash. -/
theorem c3_witness :
    0 ≤ evCount ((([] : List TraceItem) ++
      (updState (ChainProcessor.update sigFalse
        (ChainProcessor.create none singleChain none))).2).take 1) 1 ∧
    evCount ((([] : List TraceItem) ++
      (updState (ChainProcessor.update sigFalse
        (ChainProcessor.create none singleChain none))).2).take 1) 1 ≤ 1 :=
  c3_amended _ _
    (Reachable.advance sigFalse (Reachable.init none singleChain wfSingle)) 1 1

end Ironfish
